import Mathlib

/-!
Verification of the Yaniv self-play training repository.

This file gives a shallow embedding, in Lean 4, of the parts of the
repository that the specification's claims are about:

* the game engine of `yaniv_game_ai.py` (class `YanivGameAI`):
  deck creation, hand values, legal-action generation, action execution,
  the yaniv-call resolution, observable game state and the `play_game`
  driver loop;
* the population controller of `genetic_algorithm.py`
  (`select_survivors`, `create_next_generation`);
* the tally aggregation of `parallel_executor_simple.py`
  (`play_tournament_parallel_with_progress`).

Python's `random.shuffle` is modelled by passing the shuffled list (or a
shuffling oracle) as a parameter; theorems assume the oracle permutes its
argument.  Python lists popped from the end (`list.pop()`) are modelled
with `List.getLastD` / `List.dropLast`; `list.pop(i)` with `List.eraseIdx`
guarded by an index check (Python raises on a bad index, which we model by
`Option`).  Machine floats appear only as fitness values, modelled by `ℚ`.
-/

namespace Yaniv

/-- Card suits, as in `_create_deck` of `yaniv_game_ai.py`
(`hearts`, `diamonds`, `clubs`, `spades` and `joker`). -/
inductive Suit where
  | hearts | diamonds | clubs | spades | joker
deriving DecidableEq, Repr

/-- A card: suit plus value, mirroring the dicts `{'suit': s, 'value': v}`
built by `_create_deck`.  Jokers carry value 0. -/
structure Card where
  suit : Suit
  value : Nat
deriving DecidableEq, Repr

instance : Inhabited Card := ⟨⟨Suit.joker, 0⟩⟩

/-- The 54-card deck built by `_create_deck`: for each of the four suits the
values 1..13, followed by two jokers, in the source's construction order. -/
def createDeck : List Card :=
  ([Suit.hearts, Suit.diamonds, Suit.clubs, Suit.spades].flatMap
    (fun s => (List.range' 1 13).map (fun v => ⟨s, v⟩)))
  ++ [⟨Suit.joker, 0⟩, ⟨Suit.joker, 0⟩]

/-- Value contribution of one card, as in `get_hand_value`:
jokers count 0, face cards (value ≥ 11) count 10, otherwise face value. -/
def cardValue (c : Card) : Nat :=
  if c.suit = Suit.joker then 0
  else if 11 ≤ c.value then 10
  else c.value

/-- `get_hand_value`: total value of a hand. -/
def handValue (hand : List Card) : Nat :=
  hand.foldl (fun total c => total + cardValue c) 0

/-- One player's record, mirroring the dicts built in `initialize_game`
(`'ai'` is identified with the player's `'id'`/index, since `initialize_game`
sets `id = i` and nothing in the engine ever changes it). -/
structure Player where
  hand : List Card
  score : Nat
  id : Nat
deriving DecidableEq, Repr

instance : Inhabited Player := ⟨⟨[], 0, 0⟩⟩

/-- The mutable state of `YanivGameAI`.  `winner` holds the index of the
winning player (standing for the stored `ai` object). -/
structure GameState where
  deck : List Card
  discardPile : List Card
  players : List Player
  currentPlayer : Nat
  gameOver : Bool
  winner : Option Nat
deriving DecidableEq, Repr

/-- The `for i, player in enumerate(self.players)` loop of
`_handle_yaniv_call` that looks for a player (other than the caller) whose
hand value is ≤ the caller's; the Python loop breaks after the first hit and
adds the 30 penalty once, which is equivalent to this `any`-style scan. -/
def anyAssaf (callerIdx callerValue : Nat) : List Player → Nat → Bool
  | [], _ => false
  | p :: rest, i =>
    if i ≠ callerIdx ∧ handValue p.hand ≤ callerValue then true
    else anyAssaf callerIdx callerValue rest (i + 1)

/-- The winner-selection loop at the end of `_handle_yaniv_call` (and the
hand-value version at the end of `play_game`): scan the players keeping the
first index whose measure is strictly below the best so far. -/
def firstMinAux (f : Player → Nat) : List Player → Nat → Nat × Nat → Nat × Nat
  | [], _, best => best
  | p :: rest, i, (bi, bv) =>
    if f p < bv then firstMinAux f rest (i + 1) (i, f p)
    else firstMinAux f rest (i + 1) (bi, bv)

/-- `min_score = float('inf'); for player in players: if f player < min_score: ...`
returns the index of the first player attaining the minimum of `f`
(`none` on an empty player list, in which case the Python loop body never
runs and `self.winner` is left unchanged). -/
def firstMinBy (f : Player → Nat) (players : List Player) : Option Nat :=
  match players with
  | [] => none
  | p :: rest => some (firstMinAux f rest 1 (0, f p)).1

/-- `_handle_yaniv_call` of `yaniv_game_ai.py` (identical in
`yaniv_game_ai_optimized.py`): if any other player's hand value is ≤ the
caller's, assaf — the caller's score increases by 30; otherwise every
player's score (the loop runs over all players, the caller included)
increases by that player's own hand value.  Then `game_over` is set and the
winner is the first player with the lowest cumulative score. -/
def handleYanivCall (st : GameState) (callerIdx : Nat) : GameState :=
  let caller := st.players.getD callerIdx default
  let callerValue := handValue caller.hand
  let assaf := anyAssaf callerIdx callerValue st.players 0
  let players' :=
    if assaf then
      st.players.set callerIdx { caller with score := caller.score + 30 }
    else
      st.players.map (fun p : Player => { p with score := p.score + handValue p.hand })
  let winner' :=
    match firstMinBy (fun p => p.score) players' with
    | some w => some w
    | none => st.winner
  { st with players := players', gameOver := true, winner := winner' }

/-- Where an action draws its replacement card from (`'draw_from'`). -/
inductive DrawSource where
  | deck | discard
deriving DecidableEq, Repr

/-- The `'type'` field of an action dict. -/
inductive ActionType where
  | discardSingle | discardPair | discardSet | discardRun | callYaniv
deriving DecidableEq, Repr

/-- An action dict as produced by `get_legal_actions`: a type, the list of
hand indices to discard, and (for discard actions) the draw source.  The
`call_yaniv` action carries no `'draw_from'` key, hence the `Option`. -/
structure Action where
  atype : ActionType
  cards : List Nat
  drawFrom : Option DrawSource
deriving DecidableEq, Repr

instance : Inhabited Action := ⟨⟨ActionType.callYaniv, [], none⟩⟩

/-- The single-card discards of `get_legal_actions`: for each hand index,
one action drawing from the deck and one drawing from the discard pile. -/
def singleActions (hand : List Card) : List Action :=
  (List.range hand.length).flatMap (fun i =>
    [⟨ActionType.discardSingle, [i], some DrawSource.deck⟩,
     ⟨ActionType.discardSingle, [i], some DrawSource.discard⟩])

/-- The pair discards of `get_legal_actions`: all index pairs `i < j` whose
cards share a value. -/
def pairActions (hand : List Card) : List Action :=
  (List.range hand.length).flatMap (fun i =>
    (List.range' (i + 1) (hand.length - (i + 1))).flatMap (fun j =>
      if (hand.getD i default).value = (hand.getD j default).value then
        [⟨ActionType.discardPair, [i, j], some DrawSource.deck⟩,
         ⟨ActionType.discardPair, [i, j], some DrawSource.discard⟩]
      else []))

/-- One step of building the `value_groups` dict: Python dicts preserve
insertion order, and `value_groups[value].append(i)` appends at the end of
the matching group. -/
def insertValueGroup (gs : List (Nat × List Nat)) (v i : Nat) : List (Nat × List Nat) :=
  match gs with
  | [] => [(v, [i])]
  | g :: rest =>
    if g.1 = v then (g.1, g.2 ++ [i]) :: rest
    else g :: insertValueGroup rest v i

/-- The `for i, card in enumerate(hand)` loop populating `value_groups`. -/
def valueGroupsAux : List Card → Nat → List (Nat × List Nat) → List (Nat × List Nat)
  | [], _, gs => gs
  | c :: rest, i, gs => valueGroupsAux rest (i + 1) (insertValueGroup gs c.value i)

/-- `value_groups` of `get_legal_actions`: hand indices grouped by card
value, groups in first-occurrence order, indices in hand order. -/
def valueGroups (hand : List Card) : List (Nat × List Nat) :=
  valueGroupsAux hand 0 []

/-- The set discards of `get_legal_actions`: one deck/discard action pair per
value group of size ≥ 3. -/
def setActions (hand : List Card) : List Action :=
  (valueGroups hand).flatMap (fun g =>
    if 3 ≤ g.2.length then
      [⟨ActionType.discardSet, g.2, some DrawSource.deck⟩,
       ⟨ActionType.discardSet, g.2, some DrawSource.discard⟩]
    else [])

/-- One step of building the `suit_groups` dict; entries are `(value, index)`
pairs as in the source. -/
def insertSuitGroup (gs : List (Suit × List (Nat × Nat))) (s : Suit) (e : Nat × Nat) :
    List (Suit × List (Nat × Nat)) :=
  match gs with
  | [] => [(s, [e])]
  | g :: rest =>
    if g.1 = s then (g.1, g.2 ++ [e]) :: rest
    else g :: insertSuitGroup rest s e

/-- The `for i, card in enumerate(hand)` loop populating `suit_groups`. -/
def suitGroupsAux : List Card → Nat → List (Suit × List (Nat × Nat)) → List (Suit × List (Nat × Nat))
  | [], _, gs => gs
  | c :: rest, i, gs => suitGroupsAux rest (i + 1) (insertSuitGroup gs c.suit (c.value, i))

/-- `suit_groups` of `get_legal_actions`. -/
def suitGroups (hand : List Card) : List (Suit × List (Nat × Nat)) :=
  suitGroupsAux hand 0 []

/-- The inner `for j in range(start+1, ...)` loop of the run search: extend
the run while the next sorted card's value is exactly one above the last,
stopping at the first gap. -/
def takeChain (prev : Nat) : List (Nat × Nat) → List (Nat × Nat)
  | [] => []
  | e :: rest => if e.1 = prev + 1 then e :: takeChain e.1 rest else []

/-- The run grown from position `start` of the value-sorted suit group
(`run = [cards[start]]` followed by the greedy extension). -/
def runFrom (sorted : List (Nat × Nat)) (start : Nat) : List (Nat × Nat) :=
  match sorted.drop start with
  | [] => []
  | e :: rest => e :: takeChain e.1 rest

/-- The run discards of `get_legal_actions`: per suit group of size ≥ 3,
sort by value (`cards.sort(key=lambda x: x[0])`, a stable sort) and emit a
deck/discard action pair for every start whose greedy run has length ≥ 3. -/
def runActions (hand : List Card) : List Action :=
  (suitGroups hand).flatMap (fun g =>
    if 3 ≤ g.2.length then
      let sorted := g.2.mergeSort (fun a b => decide (a.1 ≤ b.1))
      (List.range (sorted.length - 2)).flatMap (fun start =>
        let r := runFrom sorted start
        if 3 ≤ r.length then
          [⟨ActionType.discardRun, r.map (fun e => e.2), some DrawSource.deck⟩,
           ⟨ActionType.discardRun, r.map (fun e => e.2), some DrawSource.discard⟩]
        else [])
    else [])

/-- The terminal clause of `get_legal_actions`: the `call_yaniv` action is
appended exactly when the hand value is at most 7. -/
def callActions (hand : List Card) : List Action :=
  if handValue hand ≤ 7 then [⟨ActionType.callYaniv, [], none⟩] else []

/-- `get_legal_actions`, as a function of the acting player's hand:
single discards, then pairs, sets, runs, and finally the optional
`call_yaniv` action, in the source's append order. -/
def legalActionsOfHand (hand : List Card) : List Action :=
  singleActions hand ++ pairActions hand ++ setActions hand ++ runActions hand
    ++ callActions hand

/-- `get_legal_actions(player_idx)`. -/
def getLegalActions (st : GameState) (playerIdx : Nat) : List Action :=
  legalActionsOfHand (st.players.getD playerIdx default).hand

/-- Python's `hand.pop(i)`: returns the removed card and the rest, `none`
(an `IndexError`) when the index is out of range. -/
def popAt (l : List Card) (i : Nat) : Option (Card × List Card) :=
  if h : i < l.length then some (l.get ⟨i, h⟩, l.eraseIdx i) else none

/-- The `for idx in cards_to_discard: discarded.append(hand.pop(idx))` loop
of `execute_action`; `acc` is the `discarded` list built so far. -/
def popManyAux : List Card → List Nat → List Card → Option (List Card × List Card)
  | hand, [], acc => some (acc, hand)
  | hand, i :: rest, acc =>
    match popAt hand i with
    | none => none
    | some (c, hand') => popManyAux hand' rest (acc ++ [c])

/-- `sorted(action['cards'], reverse=True)`. -/
def sortDesc (l : List Nat) : List Nat :=
  l.mergeSort (fun a b => decide (b ≤ a))

/-- The `if not self.deck: reshuffle` step at the end of `execute_action`:
when the deck is empty and the discard pile holds more than one card, the
pile minus its top card is shuffled into a new deck and the top card starts
the new pile.  Returns the final `(deck, discard_pile)` pair. -/
def reshuffleStep (shuffle : List Card → List Card) (deck pile : List Card) :
    List Card × List Card :=
  if deck = [] ∧ 1 < pile.length then
    (shuffle pile.dropLast, [pile.getLastD default])
  else (deck, pile)

/-- `execute_action` of `yaniv_game_ai.py`.  `random.shuffle` in the
empty-deck reshuffle is modelled by the `shuffle` oracle; `Option` models
the `IndexError` Python would raise on a bad player index or card index.
The draw follows the source's `if draw_from == 'deck' and deck` /
`elif draw_from == 'discard' and discard_pile` chain (so no card is drawn
when the chosen source is empty), then the reshuffle check runs. -/
def executeAction (shuffle : List Card → List Card) (st : GameState)
    (playerIdx : Nat) (a : Action) : Option GameState :=
  match st.players.get? playerIdx with
  | none => none
  | some player =>
    if a.atype = ActionType.callYaniv then some (handleYanivCall st playerIdx)
    else
      match popManyAux player.hand (sortDesc a.cards) [] with
      | none => none
      | some (discarded, hand1) =>
        let pile1 := st.discardPile ++ discarded
        if a.drawFrom = some DrawSource.deck ∧ st.deck ≠ [] then
          let rs := reshuffleStep shuffle st.deck.dropLast pile1
          some { st with
            players := st.players.set playerIdx
              { player with hand := hand1 ++ [st.deck.getLastD default] },
            deck := rs.1, discardPile := rs.2 }
        else if a.drawFrom = some DrawSource.discard ∧ pile1 ≠ [] then
          let rs := reshuffleStep shuffle st.deck pile1.dropLast
          some { st with
            players := st.players.set playerIdx
              { player with hand := hand1 ++ [pile1.getLastD default] },
            deck := rs.1, discardPile := rs.2 }
        else
          let rs := reshuffleStep shuffle st.deck pile1
          some { st with
            players := st.players.set playerIdx { player with hand := hand1 },
            deck := rs.1, discardPile := rs.2 }

/-- Python's `deck.pop()` (pop from the end of the list). -/
def popTop (l : List Card) : Option (Card × List Card) :=
  match l.getLast? with
  | none => none
  | some c => some (c, l.dropLast)

/-- `[self.deck.pop() for _ in range(n)]`: the popped cards in pop order,
and the remaining deck. -/
def popN : Nat → List Card → Option (List Card × List Card)
  | 0, d => some ([], d)
  | n + 1, d =>
    match popTop d with
    | none => none
    | some (c, d') =>
      match popN n d' with
      | none => none
      | some (cs, d'') => some (c :: cs, d'')

/-- The dealing loop of `initialize_game`: five cards to each player in
player order. -/
def dealHands : Nat → List Card → Option (List (List Card) × List Card)
  | 0, d => some ([], d)
  | n + 1, d =>
    match popN 5 d with
    | none => none
    | some (h, d') =>
      match dealHands n d' with
      | none => none
      | some (hs, d'') => some (h :: hs, d'')

/-- The player records built by `initialize_game` (`hand` dealt, `score` 0,
`id = i`). -/
def buildPlayersAux : List (List Card) → Nat → List Player
  | [], _ => []
  | h :: rest, i => { hand := h, score := 0, id := i } :: buildPlayersAux rest (i + 1)

/-- `initialize_game` with the post-`random.shuffle` deck passed in: deal
five cards per player, flip one card onto the discard pile, reset flags. -/
def initGame (numPlayers : Nat) (shuffledDeck : List Card) : Option GameState :=
  match dealHands numPlayers shuffledDeck with
  | none => none
  | some (hands, d1) =>
    match popTop d1 with
    | none => none
    | some (top, d2) =>
      some { deck := d2
             discardPile := [top]
             players := buildPlayersAux hands 0
             currentPlayer := 0
             gameOver := false
             winner := none }

/-- The dict returned by `get_game_state`. -/
structure GameView where
  hand : List Card
  handValue : Nat
  deckSize : Nat
  opponentCards : List Nat
  lastDiscard : Option Card
deriving DecidableEq, Repr

/-- The `for i, p in enumerate(self.players): if i != player_idx` loop of
`get_game_state` collecting opponents' hand sizes. -/
def opponentCountsAux (playerIdx : Nat) : List Player → Nat → List Nat
  | [], _ => []
  | p :: rest, i =>
    if i ≠ playerIdx then p.hand.length :: opponentCountsAux playerIdx rest (i + 1)
    else opponentCountsAux playerIdx rest (i + 1)

/-- `while len(opponent_cards) < 3: append(0)` followed by `[:3]`. -/
def padTo3 (l : List Nat) : List Nat :=
  (l ++ List.replicate (3 - l.length) 0).take 3

/-- `get_game_state(player_idx)`: the player's own hand and hand value, the
deck size, the (padded) opponents' card counts, and the visible top of the
discard pile. -/
def getGameState (st : GameState) (playerIdx : Nat) : GameView :=
  let player := st.players.getD playerIdx default
  { hand := player.hand
    handValue := handValue player.hand
    deckSize := st.deck.length
    opponentCards := padTo3 (opponentCountsAux playerIdx st.players 0)
    lastDiscard := st.discardPile.getLast? }

/-- An agent's `get_action` decision function. -/
abbrev Policy := GameView → List Action → Action

/-- The `while not self.game_over and turn_count < max_turns` loop of
`play_game` (`max_turns = 200`), step-indexed by `fuel`: `none` means the
loop has not exited within `fuel` iterations (or an action raised).  The
skip-turn branch advances the player without counting a turn, exactly as in
the source. -/
def playLoop (shuffle : List Card → List Card) (policies : List Policy) :
    Nat → GameState → Nat → Option (GameState × Nat)
  | 0, _, _ => none
  | fuel + 1, st, turnCount =>
    if st.gameOver = false ∧ turnCount < 200 then
      let legal := getLegalActions st st.currentPlayer
      if legal = [] then
        playLoop shuffle policies fuel
          { st with currentPlayer := (st.currentPlayer + 1) % st.players.length } turnCount
      else
        let view := getGameState st st.currentPlayer
        let a := (policies.getD st.currentPlayer (fun _ _ => default)) view legal
        match executeAction shuffle st st.currentPlayer a with
        | none => none
        | some st' =>
          playLoop shuffle policies fuel
            { st' with currentPlayer := (st'.currentPlayer + 1) % st'.players.length }
            (turnCount + 1)
    else some (st, turnCount)

/-- `play_game`: initialize, run the loop, and if no winner was set on game
over, pick the first player with the lowest hand value (the turn-cap path).
Returns the final state and the winner's index. -/
def playGame (shuffle : List Card → List Card) (policies : List Policy)
    (fuel : Nat) : Option (GameState × Option Nat) :=
  match initGame policies.length (shuffle createDeck) with
  | none => none
  | some st0 =>
    match playLoop shuffle policies fuel st0 0 with
    | none => none
    | some (stF, _) =>
      let w :=
        match stF.winner with
        | some w => some w
        | none => firstMinBy (fun p => handValue p.hand) stF.players
      some (stF, w)

/-- All cards in play: deck, then discard pile, then every hand. -/
def stateCards (st : GameState) : List Card :=
  st.deck ++ st.discardPile ++ (st.players.map Player.hand).flatten

/-- States reachable in the engine: a freshly initialized game (for any
permutation of the 54-card deck), closed under executing a legal action of
the current player and advancing to the next player, as `play_game` does. -/
inductive Reachable (shuffle : List Card → List Card) : GameState → Prop where
  | base : ∀ n d st, 1 ≤ n → d.Perm createDeck → initGame n d = some st →
      Reachable shuffle st
  | step : ∀ st a st', Reachable shuffle st →
      a ∈ getLegalActions st st.currentPlayer →
      executeAction shuffle st st.currentPlayer a = some st' →
      Reachable shuffle
        { st' with currentPlayer := (st'.currentPlayer + 1) % st'.players.length }

/-- An evolving agent of `genetic_algorithm.py` (`YanivNeuralNetwork`):
identity, parameter vector (abstracted to a type `α`), and fitness.
Fitness is a Python float `wins / games_played`; modelled by `ℚ`. -/
structure Agent (α : Type) where
  networkId : Nat
  params : α
  fitness : ℚ
deriving DecidableEq, Repr

/-- `sorted(self.population, key=lambda x: x.fitness, reverse=True)`: a
stable descending sort by fitness. -/
def sortByFitnessDesc {α : Type} (pop : List (Agent α)) : List (Agent α) :=
  pop.mergeSort (fun a b => decide (b.fitness ≤ a.fitness))

/-- `select_survivors` of `genetic_algorithm.py`: the top `top_k` of the
population sorted descending by fitness. -/
def selectSurvivors {α : Type} (topK : Nat) (pop : List (Agent α)) : List (Agent α) :=
  (sortByFitnessDesc pop).take topK

/-- The elitism loop of `create_next_generation`: the survivors themselves
are kept, with `network_id` reassigned to their position. -/
def keepSurvivorsAux {α : Type} : List (Agent α) → Nat → List (Agent α)
  | [], _ => []
  | s :: rest, i => { s with networkId := i } :: keepSurvivorsAux rest (i + 1)

/-- The inner `for _ in range(3)` loop of `create_next_generation`: while
`current_id < population_size`, append `survivor.copy()` (fresh object,
same parameters, fitness reset by `__init__`) with the next id, mutated by
the `mutate` oracle.  State is `(current_id, new_population)`. -/
def mutantRounds {α : Type} (popSize : Nat) (mutate : α → α) (s : Agent α) :
    Nat → Nat × List (Agent α) → Nat × List (Agent α)
  | 0, st => st
  | k + 1, (cid, acc) =>
    if cid < popSize then
      mutantRounds popSize mutate s k
        (cid + 1, acc ++ [{ networkId := cid, params := mutate s.params, fitness := 0 }])
    else mutantRounds popSize mutate s k (cid, acc)

/-- The outer `for survivor in survivors` loop creating mutated copies
(`mutations_per_survivor = 3`). -/
def addMutants {α : Type} (popSize : Nat) (mutate : α → α) :
    List (Agent α) → Nat × List (Agent α) → Nat × List (Agent α)
  | [], st => st
  | s :: rest, st => addMutants popSize mutate rest (mutantRounds popSize mutate s 3 st)

/-- `while len(new_population) < self.population_size`: fill the remaining
slots with fresh random networks (the `fresh` oracle) with consecutive ids. -/
def fillRandom {α : Type} (popSize : Nat) (fresh : Nat → Agent α) (cid : Nat)
    (acc : List (Agent α)) : List (Agent α) :=
  if acc.length < popSize then fillRandom popSize fresh (cid + 1) (acc ++ [fresh cid])
  else acc
termination_by popSize - acc.length
decreasing_by simp; omega

/-- `create_next_generation` of `genetic_algorithm.py`: keep the survivors,
append up to three mutated copies of each while ids remain below the
population size, then fill with fresh random networks. -/
def createNextGeneration {α : Type} (popSize : Nat) (mutate : α → α)
    (fresh : Nat → Agent α) (survivors : List (Agent α)) : List (Agent α) :=
  let kept := keepSurvivorsAux survivors 0
  let st := addMutants popSize mutate survivors (survivors.length, kept)
  fillRandom popSize fresh st.1 st.2

/-- One completed matchup's result as returned by `play_single_matchup` of
`parallel_executor_simple.py`: the two agent ids and their win counts. -/
structure MatchResult where
  p1Id : Nat
  p2Id : Nat
  p1Wins : Nat
  p2Wins : Nat
deriving DecidableEq, Repr

/-- `wins, games = results_dict[i]; results_dict[i] = (wins + w, games + g)`:
one additive update of the per-agent tally map. -/
def bumpTally (g : Nat) (m : Nat → Nat × Nat) (i w : Nat) : Nat → Nat × Nat :=
  fun j => if j = i then ((m i).1 + w, (m i).2 + g) else m j

/-- Merging one completed matchup into the tally map, as in the
`as_completed` loop of `play_tournament_parallel_with_progress`: first the
first player's entry, then the second's (`g = games_per_matchup`). -/
def applyResult (g : Nat) (m : Nat → Nat × Nat) (r : MatchResult) : Nat → Nat × Nat :=
  bumpTally g (bumpTally g m r.p1Id r.p1Wins) r.p2Id r.p2Wins

/-- Folding a list of matchup results into the tally map in completion
order. -/
def mergeResults (g : Nat) (start : Nat → Nat × Nat) (rs : List MatchResult) :
    Nat → Nat × Nat :=
  rs.foldl (applyResult g) start

/-- Concrete round state used by witnesses and counterexamples for the
yaniv-call claims: caller (player 0) holds hand value 5, the opponent
(player 1) hand value 8, both scores 0. -/
def witnessStateA : GameState :=
  { deck := [⟨Suit.spades, 4⟩, ⟨Suit.diamonds, 9⟩]
    discardPile := [⟨Suit.clubs, 2⟩]
    players := [{ hand := [⟨Suit.hearts, 5⟩], score := 0, id := 0 },
                { hand := [⟨Suit.hearts, 8⟩], score := 0, id := 1 }]
    currentPlayer := 0
    gameOver := false
    winner := none }

/-- Concrete round state for the C2 counterexample: caller (player 0) hand
value 5; player 1 hand value 5 (triggers assaf); player 2 hand value 2 (the
lowest-value opponent); all scores 0. -/
def cexStateB : GameState :=
  { deck := [⟨Suit.spades, 4⟩]
    discardPile := [⟨Suit.clubs, 7⟩]
    players := [{ hand := [⟨Suit.hearts, 5⟩], score := 0, id := 0 },
                { hand := [⟨Suit.diamonds, 5⟩], score := 0, id := 1 },
                { hand := [⟨Suit.clubs, 2⟩], score := 0, id := 2 }]
    currentPlayer := 0
    gameOver := false
    winner := none }

/-- First of two concrete states for the C9 witness: they agree on player
0's hand, the opponent's hand **size**, the deck size and the visible top of
the discard pile, but differ in the opponent's hand contents (and in hidden
deck/pile contents). -/
def leakStateL : GameState :=
  { deck := [⟨Suit.spades, 4⟩, ⟨Suit.diamonds, 9⟩]
    discardPile := [⟨Suit.hearts, 12⟩, ⟨Suit.clubs, 2⟩]
    players := [{ hand := [⟨Suit.hearts, 5⟩], score := 0, id := 0 },
                { hand := [⟨Suit.hearts, 8⟩, ⟨Suit.clubs, 3⟩], score := 0, id := 1 }]
    currentPlayer := 0
    gameOver := false
    winner := none }

/-- Second concrete state for the C9 witness (opponent holds different
cards of the same count; hidden deck and pile bottoms differ too). -/
def leakStateR : GameState :=
  { deck := [⟨Suit.clubs, 11⟩, ⟨Suit.hearts, 1⟩]
    discardPile := [⟨Suit.diamonds, 6⟩, ⟨Suit.clubs, 2⟩]
    players := [{ hand := [⟨Suit.hearts, 5⟩], score := 0, id := 0 },
                { hand := [⟨Suit.spades, 13⟩, ⟨Suit.joker, 0⟩], score := 0, id := 1 }]
    currentPlayer := 0
    gameOver := false
    winner := none }

instance : Inhabited GameState :=
  ⟨{ deck := [], discardPile := [], players := [], currentPlayer := 0,
     gameOver := false, winner := none }⟩

/-- The state of a fresh two-player game dealt from the unshuffled
`createDeck` (shuffle oracle = identity); used by the C3/C5 witnesses. -/
def initialStateW : GameState :=
  (initGame 2 createDeck).getD default

/-- The invariant maintained by the `play_game` loop for two players whose
policies never call yaniv: two players, a valid current player, the game
not over and no winner set, non-empty deck, discard pile, and hands. -/
def LoopGood (st : GameState) : Prop :=
  st.players.length = 2 ∧ st.currentPlayer < 2 ∧ st.gameOver = false ∧
  st.winner = none ∧ st.deck ≠ [] ∧ st.discardPile ≠ [] ∧
  ∀ p ∈ st.players, p.hand ≠ []

/-- An agent decision function that always returns an element of the
legal-action list and never the `call_yaniv` action (stated on the lists
`get_legal_actions` actually produces, whose hands are never empty inside
the loop). -/
def GoodPolicy (pol : Policy) : Prop :=
  ∀ (view : GameView) (hand : List Card), hand ≠ [] →
    pol view (legalActionsOfHand hand) ∈ legalActionsOfHand hand ∧
    (pol view (legalActionsOfHand hand)).atype ≠ ActionType.callYaniv

/-- A concrete adversarial agent for the C6 witness: always picks the first
legal action that is not `call_yaniv`. -/
def neverCallPolicy : Policy :=
  fun _ legal =>
    (legal.filter (fun x => decide (x.atype ≠ ActionType.callYaniv))).headD default

/-! ### Lemmas about the scan loops of `_handle_yaniv_call` -/

lemma anyAssaf_eq_false (callerIdx cv : Nat) :
    ∀ (l : List Player) (k : Nat),
      (∀ j, j < l.length → k + j ≠ callerIdx → cv < handValue ((l.getD j default).hand)) →
      anyAssaf callerIdx cv l k = false := by
  intro l
  induction l with
  | nil => intro k _; rfl
  | cons p t ih =>
    intro k h
    simp only [anyAssaf]
    rw [if_neg, ih (k + 1)]
    · intro j hj hne
      have := h (j + 1) (by simpa using Nat.succ_lt_succ hj) (by omega)
      simpa using this
    · rintro ⟨hk, hle⟩
      have := h 0 (by simp) (by omega)
      simp only [List.getD_cons_zero] at this
      omega

lemma anyAssaf_eq_true (callerIdx cv : Nat) :
    ∀ (l : List Player) (k j : Nat), j < l.length → k + j ≠ callerIdx →
      handValue ((l.getD j default).hand) ≤ cv →
      anyAssaf callerIdx cv l k = true := by
  intro l
  induction l with
  | nil => intro k j hj; simp at hj
  | cons p t ih =>
    intro k j hj hne hle
    simp only [anyAssaf]
    cases j with
    | zero =>
      rw [if_pos]
      exact ⟨by omega, by simpa using hle⟩
    | succ j' =>
      by_cases hc : (k ≠ callerIdx ∧ handValue p.hand ≤ cv)
      · rw [if_pos hc]
      · rw [if_neg hc]
        exact ih (k + 1) j' (by simpa using hj) (by omega) (by simpa using hle)

lemma firstMinAux_const (f : Player → Nat) :
    ∀ (rest : List Player) (i bi bv : Nat), (∀ p ∈ rest, bv ≤ f p) →
      firstMinAux f rest i (bi, bv) = (bi, bv) := by
  intro rest
  induction rest with
  | nil => intros; rfl
  | cons p t ih =>
    intro i bi bv h
    simp only [firstMinAux]
    rw [if_neg (by have := h p (by simp); omega)]
    exact ih (i + 1) bi bv (fun q hq => h q (by simp [hq]))

lemma firstMinAux_min (f : Player → Nat) :
    ∀ (rest : List Player) (m : Nat), m < rest.length →
      ∀ (i bi bv : Nat),
      f (rest.getD m default) < bv →
      (∀ j, j < m → f (rest.getD m default) < f (rest.getD j default)) →
      (∀ j, j < rest.length → f (rest.getD m default) ≤ f (rest.getD j default)) →
      firstMinAux f rest i (bi, bv) = (i + m, f (rest.getD m default)) := by
  intro rest
  induction rest with
  | nil => intro m hm; simp at hm
  | cons p t ih =>
    intro m hm i bi bv hbv hlt hle
    cases m with
    | zero =>
      simp only [List.getD_cons_zero] at hbv ⊢
      simp only [firstMinAux]
      rw [if_pos hbv]
      rw [firstMinAux_const]
      · simp
      · intro q hq
        obtain ⟨⟨n, hn⟩, rfl⟩ := List.mem_iff_get.mp hq
        have := hle (n + 1) (by simpa using Nat.succ_lt_succ hn)
        rw [List.getD_cons_zero, List.getD_cons_succ, List.getD_eq_getElem _ _ hn] at this
        simpa [List.get_eq_getElem] using this
    | succ m' =>
      have hm' : m' < t.length := by simpa using hm
      simp only [List.getD_cons_succ] at hbv hlt ⊢
      have hple : f (t.getD m' default) < f p := by
        have := hlt 0 (Nat.succ_pos m')
        simpa using this
      have hrec : ∀ j, j < m' → f (t.getD m' default) < f (t.getD j default) := by
        intro j hj
        have := hlt (j + 1) (by omega)
        simpa using this
      have hrecle : ∀ j, j < t.length → f (t.getD m' default) ≤ f (t.getD j default) := by
        intro j hj
        have := hle (j + 1) (by simpa using Nat.succ_lt_succ hj)
        simpa using this
      simp only [firstMinAux]
      by_cases hp : f p < bv
      · rw [if_pos hp]
        rw [ih m' hm' (i + 1) i (f p) hple hrec hrecle]
        have : i + 1 + m' = i + (m' + 1) := by omega
        rw [this]
      · rw [if_neg hp]
        rw [ih m' hm' (i + 1) bi bv (by omega) hrec hrecle]
        have : i + 1 + m' = i + (m' + 1) := by omega
        rw [this]

lemma firstMinBy_eq (f : Player → Nat) (l : List Player) (m : Nat) (hm : m < l.length)
    (hlt : ∀ j, j < m → f (l.getD m default) < f (l.getD j default))
    (hle : ∀ j, j < l.length → f (l.getD m default) ≤ f (l.getD j default)) :
    firstMinBy f l = some m := by
  cases l with
  | nil => simp at hm
  | cons p t =>
    cases m with
    | zero =>
      simp only [firstMinBy]
      rw [firstMinAux_const f t 1 0 (f p)]
      intro q hq
      obtain ⟨⟨n, hn⟩, rfl⟩ := List.mem_iff_get.mp hq
      have := hle (n + 1) (by simpa using Nat.succ_lt_succ hn)
      rw [List.getD_cons_zero, List.getD_cons_succ, List.getD_eq_getElem _ _ hn] at this
      simpa [List.get_eq_getElem] using this
    | succ m' =>
      have hm' : m' < t.length := by simpa using hm
      simp only [firstMinBy]
      rw [firstMinAux_min f t m' hm' 1 0 (f p)]
      · simp [Nat.add_comm 1 m']
      · have := hlt 0 (Nat.succ_pos m')
        simpa using this
      · intro j hj
        have := hlt (j + 1) (by omega)
        simpa using this
      · intro j hj
        have := hle (j + 1) (by simpa using Nat.succ_lt_succ hj)
        simpa using this

lemma getD_set_same (l : List Player) (i : Nat) (p : Player) (h : i < l.length) :
    (l.set i p).getD i default = p := by
  rw [List.getD_eq_getElem _ _ (by simpa using h)]
  exact List.getElem_set_self _

lemma getD_set_other (l : List Player) (i j : Nat) (p : Player) (h : j < l.length)
    (hne : i ≠ j) : (l.set i p).getD j default = l.getD j default := by
  rw [List.getD_eq_getElem _ _ (by simpa using h), List.getElem_set_ne hne,
    List.getD_eq_getElem _ _ h]

lemma firstMinBy_penalized (l : List Player) (c s0 : Nat) (hc : c < l.length)
    (h2 : 2 ≤ l.length)
    (hs : ∀ j, j < l.length → (l.getD j default).score = s0) :
    firstMinBy (fun p => p.score)
      (l.set c { l.getD c default with score := (l.getD c default).score + 30 })
      = some (if c = 0 then 1 else 0) := by
  by_cases h0 : c = 0
  · subst h0
    rw [if_pos rfl]
    apply firstMinBy_eq
    · simpa using h2
    · intro j hj
      have hj0 : j = 0 := by omega
      subst hj0
      rw [getD_set_other l 0 1 _ (by omega) (by omega),
          getD_set_same l 0 _ hc, hs 1 (by omega)]
      have := hs 0 (by omega)
      simp only [Player.score] at this ⊢
      omega
    · intro j hj
      rw [List.length_set] at hj
      rw [getD_set_other l 0 1 _ (by omega) (by omega), hs 1 (by omega)]
      by_cases hj0 : j = 0
      · subst hj0
        rw [getD_set_same l 0 _ hc]
        have := hs 0 (by omega)
        simp only [Player.score] at this ⊢
        omega
      · rw [getD_set_other l 0 j _ hj (fun h => hj0 h.symm), hs j hj]
  · rw [if_neg h0]
    apply firstMinBy_eq
    · rw [List.length_set]; omega
    · intro j hj
      exact absurd hj (by omega)
    · intro j hj
      rw [List.length_set] at hj
      rw [getD_set_other l c 0 _ (by omega) h0, hs 0 (by omega)]
      by_cases hjc : j = c
      · subst hjc
        rw [getD_set_same l _ _ hc]
        have := hs j (by omega)
        simp only [Player.score] at this ⊢
        omega
      · rw [getD_set_other l c j _ hj (fun h => hjc h.symm), hs j hj]

/-! ### C1: a successful yaniv call -/

/-- C1 (amended): in a round state with equal pre-call cumulative scores (as
in every reachable round state, where all scores are 0) whose caller's hand
value is strictly lower than every other player's, `_handle_yaniv_call` ends
the round with the caller as winner, and **every** player's cumulative
score — the caller included, contrary to the original claim — increases by
exactly that player's own hand value. -/
theorem yanivCall_caller_wins (st : GameState) (callerIdx s0 : Nat)
    (hcaller : callerIdx < st.players.length)
    (hscores : ∀ p ∈ st.players, p.score = s0)
    (hlow : ∀ j, j < st.players.length → j ≠ callerIdx →
      handValue ((st.players.getD callerIdx default).hand) <
        handValue ((st.players.getD j default).hand)) :
    (handleYanivCall st callerIdx).gameOver = true ∧
    (∀ j, j < st.players.length →
      ((handleYanivCall st callerIdx).players.getD j default).score
        = (st.players.getD j default).score
          + handValue ((st.players.getD j default).hand)) ∧
    (handleYanivCall st callerIdx).winner = some callerIdx := by
  have hassaf : anyAssaf callerIdx
      (handValue ((st.players.getD callerIdx default).hand)) st.players 0 = false := by
    apply anyAssaf_eq_false
    intro j hj hne
    exact hlow j hj (by omega)
  have hscoreD : ∀ j, j < st.players.length → (st.players.getD j default).score = s0 := by
    intro j hj
    rw [List.getD_eq_getElem _ _ hj]
    exact hscores _ (List.getElem_mem hj)
  have hscore' : ∀ j, (hj : j < st.players.length) →
      ((st.players.map (fun p : Player => { p with score := p.score + handValue p.hand })).getD
        j default).score
        = s0 + handValue ((st.players.getD j default).hand) := by
    intro j hj
    rw [List.getD_eq_getElem _ _ (by simpa using hj), List.getElem_map,
        List.getD_eq_getElem _ _ hj]
    have : (st.players[j]).score = s0 := hscores _ (List.getElem_mem hj)
    simp [this]
  have hwin : firstMinBy (fun p => p.score)
      (st.players.map (fun p : Player => { p with score := p.score + handValue p.hand }))
      = some callerIdx := by
    apply firstMinBy_eq
    · simpa using hcaller
    · intro j hj
      have hjlen : j < st.players.length := lt_trans hj hcaller
      rw [hscore' callerIdx hcaller, hscore' j hjlen]
      have := hlow j hjlen (by omega)
      omega
    · intro j hj
      have hjlen : j < st.players.length := by simpa using hj
      rw [hscore' callerIdx hcaller, hscore' j hjlen]
      by_cases hjc : j = callerIdx
      · subst hjc; omega
      · have := hlow j hjlen hjc
        omega
  refine ⟨by simp [handleYanivCall], ?_, ?_⟩
  · intro j hj
    simp only [handleYanivCall, hassaf, Bool.false_eq_true, if_false]
    rw [hscore' j hj, hscoreD j hj]
  · simp only [handleYanivCall, hassaf, Bool.false_eq_true, if_false, hwin]

/-- Witness for `yanivCall_caller_wins` at `witnessStateA`. -/
theorem yanivCall_caller_wins_witness :
    (handleYanivCall witnessStateA 0).gameOver = true ∧
    (∀ j, j < witnessStateA.players.length →
      ((handleYanivCall witnessStateA 0).players.getD j default).score
        = (witnessStateA.players.getD j default).score
          + handValue ((witnessStateA.players.getD j default).hand)) ∧
    (handleYanivCall witnessStateA 0).winner = some 0 :=
  yanivCall_caller_wins witnessStateA 0 0 (by decide) (by decide) (by decide)

/-- C1 counterexample: at `witnessStateA` the caller's hand value 5 is
strictly below the opponent's 8, yet after the call the caller's cumulative
score is 5, not unchanged at 0: the code adds the caller's own hand value to
the caller's score as well. -/
theorem C1_counterexample :
    ¬ (((handleYanivCall witnessStateA 0).players.getD 0 default).score
        = ((witnessStateA.players.getD 0 default).score)) := by decide

/-! ### C2: a failed yaniv call (assaf) -/

/-- C2 (amended): in a round state with equal pre-call cumulative scores in
which some other player's hand value is ≤ the caller's, `_handle_yaniv_call`
is an assaf: the caller's cumulative score increases by exactly the fixed
penalty 30, every other player's score is unchanged, and the declared round
winner is the first player with the lowest cumulative score — that is the
lowest-**index** non-caller player, not (as the original claim states) the
non-caller with the lowest hand value. -/
theorem yanivCall_assaf (st : GameState) (callerIdx s0 j0 : Nat)
    (hcaller : callerIdx < st.players.length)
    (hscores : ∀ p ∈ st.players, p.score = s0)
    (hj0 : j0 < st.players.length) (hne : j0 ≠ callerIdx)
    (hassafIn : handValue ((st.players.getD j0 default).hand)
      ≤ handValue ((st.players.getD callerIdx default).hand)) :
    (handleYanivCall st callerIdx).gameOver = true ∧
    ((handleYanivCall st callerIdx).players.getD callerIdx default).score
      = (st.players.getD callerIdx default).score + 30 ∧
    (∀ j, j < st.players.length → j ≠ callerIdx →
      ((handleYanivCall st callerIdx).players.getD j default).score
        = (st.players.getD j default).score) ∧
    (handleYanivCall st callerIdx).winner
      = some (if callerIdx = 0 then 1 else 0) := by
  have hassaf : anyAssaf callerIdx
      (handValue ((st.players.getD callerIdx default).hand)) st.players 0 = true :=
    anyAssaf_eq_true _ _ st.players 0 j0 hj0 (by omega) hassafIn
  have hscoreD : ∀ j, j < st.players.length → (st.players.getD j default).score = s0 := by
    intro j hj
    rw [List.getD_eq_getElem _ _ hj]
    exact hscores _ (List.getElem_mem hj)
  have h2 : 2 ≤ st.players.length := by omega
  refine ⟨by simp [handleYanivCall], ?_, ?_, ?_⟩
  · simp only [handleYanivCall, hassaf, if_true]
    rw [getD_set_same _ _ _ hcaller]
  · intro j hj hjc
    simp only [handleYanivCall, hassaf, if_true]
    rw [getD_set_other _ _ _ _ hj (fun h => hjc h.symm)]
  · simp only [handleYanivCall, hassaf, if_true,
      firstMinBy_penalized st.players callerIdx s0 hcaller h2 hscoreD]

/-- C2 counterexample: at `cexStateB` (caller hand value 5, player 1 hand
value 5, player 2 hand value 2) the call is an assaf and the code declares
player 1 — the first non-caller, scores (30, 0, 0) — the round winner, even
though the non-caller with the lowest hand value is player 2. -/
theorem C2_counterexample :
    (handleYanivCall cexStateB 0).winner = some 1 ∧
    handValue ((cexStateB.players.getD 2 default).hand)
      < handValue ((cexStateB.players.getD 1 default).hand) := by decide

/-- Witness for `yanivCall_assaf` at `cexStateB` (caller 0, opponent 1 with
equal hand value triggers the assaf). -/
theorem yanivCall_assaf_witness :
    (handleYanivCall cexStateB 0).gameOver = true ∧
    ((handleYanivCall cexStateB 0).players.getD 0 default).score
      = (cexStateB.players.getD 0 default).score + 30 ∧
    (∀ j, j < cexStateB.players.length → j ≠ 0 →
      ((handleYanivCall cexStateB 0).players.getD j default).score
        = (cexStateB.players.getD j default).score) ∧
    (handleYanivCall cexStateB 0).winner = some (if 0 = 0 then 1 else 0) :=
  yanivCall_assaf cexStateB 0 0 1 (by decide) (by decide) (by decide) (by decide)
    (by decide)

/-! ### C4 and C10: the legal-action list -/

lemma mem_of_mem_if_nil {α : Type} {c : Prop} [Decidable c] {a : α} {l : List α}
    (h : a ∈ if c then l else []) : a ∈ l := by
  split at h
  · exact h
  · simp at h

lemma atype_of_mem_singleActions {hand : List Card} {a : Action}
    (ha : a ∈ singleActions hand) : a.atype = ActionType.discardSingle := by
  simp only [singleActions, List.mem_flatMap, List.mem_range] at ha
  obtain ⟨i, _, hmem⟩ := ha
  simp only [List.mem_cons, List.not_mem_nil, or_false] at hmem
  rcases hmem with rfl | rfl <;> rfl

lemma atype_of_mem_pairActions {hand : List Card} {a : Action}
    (ha : a ∈ pairActions hand) : a.atype = ActionType.discardPair := by
  simp only [pairActions, List.mem_flatMap, List.mem_range, List.mem_range'] at ha
  obtain ⟨i, _, j, _, hmem⟩ := ha
  have hmem' := mem_of_mem_if_nil hmem
  simp only [List.mem_cons, List.not_mem_nil, or_false] at hmem'
  rcases hmem' with rfl | rfl <;> rfl

lemma atype_of_mem_setActions {hand : List Card} {a : Action}
    (ha : a ∈ setActions hand) : a.atype = ActionType.discardSet := by
  simp only [setActions, List.mem_flatMap] at ha
  obtain ⟨g, _, hmem⟩ := ha
  have hmem' := mem_of_mem_if_nil hmem
  simp only [List.mem_cons, List.not_mem_nil, or_false] at hmem'
  rcases hmem' with rfl | rfl <;> rfl

lemma atype_of_mem_runActions {hand : List Card} {a : Action}
    (ha : a ∈ runActions hand) : a.atype = ActionType.discardRun := by
  simp only [runActions, List.mem_flatMap] at ha
  obtain ⟨g, _, hmem⟩ := ha
  have hmem' := mem_of_mem_if_nil hmem
  simp only [List.mem_flatMap, List.mem_range] at hmem'
  obtain ⟨start, _, hmem2⟩ := hmem'
  have hmem3 := mem_of_mem_if_nil hmem2
  simp only [List.mem_cons, List.not_mem_nil, or_false] at hmem3
  rcases hmem3 with rfl | rfl <;> rfl

lemma callYaniv_mem_of_hand (hand : List Card) :
    (∃ a ∈ legalActionsOfHand hand, a.atype = ActionType.callYaniv)
      ↔ handValue hand ≤ 7 := by
  constructor
  · rintro ⟨a, ha, hty⟩
    simp only [legalActionsOfHand, List.mem_append] at ha
    rcases ha with ((((h | h) | h) | h) | h)
    · rw [atype_of_mem_singleActions h] at hty; exact absurd hty (by simp)
    · rw [atype_of_mem_pairActions h] at hty; exact absurd hty (by simp)
    · rw [atype_of_mem_setActions h] at hty; exact absurd hty (by simp)
    · rw [atype_of_mem_runActions h] at hty; exact absurd hty (by simp)
    · simp only [callActions] at h
      split at h
      · assumption
      · simp at h
  · intro h
    refine ⟨⟨ActionType.callYaniv, [], none⟩, ?_, rfl⟩
    simp only [legalActionsOfHand, List.mem_append]
    right
    simp [callActions, h]

lemma legalActionsOfHand_ne_nil (hand : List Card) : legalActionsOfHand hand ≠ [] := by
  cases hand with
  | nil => decide
  | cons c t =>
    apply List.ne_nil_of_mem
      (a := (⟨ActionType.discardSingle, [0], some DrawSource.deck⟩ : Action))
    simp only [legalActionsOfHand, List.mem_append]
    left; left; left; left
    simp only [singleActions, List.mem_flatMap, List.mem_range]
    exact ⟨0, by simp, by simp⟩

/-- C4: the list returned by `get_legal_actions` contains a `call_yaniv`
action if and only if the acting player's hand value is at most the
threshold 7; no other clause of the generator ever emits one. -/
theorem callYaniv_mem_iff (st : GameState) (playerIdx : Nat) :
    (∃ a ∈ getLegalActions st playerIdx, a.atype = ActionType.callYaniv)
      ↔ handValue ((st.players.getD playerIdx default).hand) ≤ 7 :=
  callYaniv_mem_of_hand _

/-- C10: `get_legal_actions` never returns an empty list — a non-empty hand
yields single-card discards, and an empty hand has value 0 ≤ 7 so the
`call_yaniv` action is present; hence the `if not legal_actions: skip turn`
branch of `play_game` can never be taken. -/
theorem getLegalActions_ne_nil (st : GameState) (playerIdx : Nat) :
    getLegalActions st playerIdx ≠ [] :=
  legalActionsOfHand_ne_nil _

/-! ### C9: the observable state leaks no opponent cards -/

lemma opponentCountsAux_congr (idx : Nat) :
    ∀ (l1 l2 : List Player) (k : Nat), l1.length = l2.length →
      (∀ j, j < l1.length → k + j ≠ idx →
        ((l1.getD j default).hand).length = ((l2.getD j default).hand).length) →
      opponentCountsAux idx l1 k = opponentCountsAux idx l2 k := by
  intro l1
  induction l1 with
  | nil =>
    intro l2 k hlen _
    cases l2 with
    | nil => rfl
    | cons q t2 => simp at hlen
  | cons p t ih =>
    intro l2 k hlen hh
    cases l2 with
    | nil => simp at hlen
    | cons q t2 =>
      have hlen' : t.length = t2.length := by simpa using hlen
      have hrec : opponentCountsAux idx t (k + 1) = opponentCountsAux idx t2 (k + 1) := by
        apply ih t2 (k + 1) hlen'
        intro j hj hne
        have := hh (j + 1) (by simpa using Nat.succ_lt_succ hj) (by omega)
        simpa using this
      simp only [opponentCountsAux]
      by_cases hk : k ≠ idx
      · rw [if_pos hk, if_pos hk, hrec]
        have h0 := hh 0 (by simp) (by omega)
        simp only [List.getD_cons_zero] at h0
        rw [h0]
      · rw [if_neg hk, if_neg hk, hrec]

/-- C9: `get_game_state` depends only on the player's own hand, each
opponent's hand **size**, the deck size and the top of the discard pile:
two states agreeing on those (but with arbitrary, e.g. different, opponent
hand contents) yield identical observable states — opponents' hands are
never exposed. -/
theorem gameState_no_leak (s1 s2 : GameState) (playerIdx : Nat)
    (hlen : s1.players.length = s2.players.length)
    (hown : (s1.players.getD playerIdx default).hand
      = (s2.players.getD playerIdx default).hand)
    (hcounts : ∀ j, j < s1.players.length → j ≠ playerIdx →
      ((s1.players.getD j default).hand).length
        = ((s2.players.getD j default).hand).length)
    (hdeck : s1.deck.length = s2.deck.length)
    (htop : s1.discardPile.getLast? = s2.discardPile.getLast?) :
    getGameState s1 playerIdx = getGameState s2 playerIdx := by
  simp only [getGameState]
  rw [hown, hdeck, htop,
    opponentCountsAux_congr playerIdx s1.players s2.players 0 hlen
      (fun j hj hne => hcounts j hj (by omega))]

/-- Witness for `gameState_no_leak`: `leakStateL` and `leakStateR` differ in
the opponent's hand contents yet produce the same observable state. -/
theorem gameState_no_leak_witness : getGameState leakStateL 0 = getGameState leakStateR 0 :=
  gameState_no_leak leakStateL leakStateR 0 (by decide) (by decide) (by decide)
    (by decide) (by decide)

/-! ### C8: tally aggregation is order-independent -/

lemma foldl_perm {α β : Type} (f : β → α → β)
    (hf : ∀ b a1 a2, f (f b a1) a2 = f (f b a2) a1) :
    ∀ {l1 l2 : List α}, l1.Perm l2 → ∀ b, l1.foldl f b = l2.foldl f b := by
  intro l1 l2 h
  induction h with
  | nil => intro b; rfl
  | cons x _ ih => intro b; simp only [List.foldl_cons]; exact ih _
  | swap x y l => intro b; simp only [List.foldl_cons]; rw [hf]
  | trans _ _ ih1 ih2 => intro b; rw [ih1, ih2]

lemma bumpTally_comm (g : Nat) (m : Nat → Nat × Nat) (i1 w1 i2 w2 : Nat) :
    bumpTally g (bumpTally g m i1 w1) i2 w2
      = bumpTally g (bumpTally g m i2 w2) i1 w1 := by
  funext j
  simp only [bumpTally]
  by_cases h12 : i1 = i2
  · subst h12
    by_cases hj : j = i1
    · simp [hj, Nat.add_right_comm]
    · simp [hj]
  · by_cases hj1 : j = i1
    · subst hj1
      simp [h12, Ne.symm h12]
    · by_cases hj2 : j = i2
      · subst hj2
        simp [hj1, Ne.symm h12, h12]
      · simp [hj1, hj2]

lemma applyResult_comm (g : Nat) (m : Nat → Nat × Nat) (r1 r2 : MatchResult) :
    applyResult g (applyResult g m r1) r2 = applyResult g (applyResult g m r2) r1 := by
  simp only [applyResult]
  rw [bumpTally_comm g (bumpTally g m r1.p1Id r1.p1Wins) r1.p2Id r1.p2Wins
        r2.p1Id r2.p1Wins,
      bumpTally_comm g m r1.p1Id r1.p1Wins r2.p1Id r2.p1Wins,
      bumpTally_comm g (bumpTally g (bumpTally g m r2.p1Id r2.p1Wins) r1.p1Id r1.p1Wins)
        r1.p2Id r1.p2Wins r2.p2Id r2.p2Wins,
      bumpTally_comm g (bumpTally g m r2.p1Id r2.p1Wins) r1.p1Id r1.p1Wins
        r2.p2Id r2.p2Wins]

/-- C8: merging a fixed multiset of matchup results into the per-agent
(wins, gamesPlayed) map by addition — each result contributing `p1_wins`
and `p2_wins` wins and `games_per_matchup` games to its two agent ids — is
order-independent: every permutation of the completion order yields the
same final map. -/
theorem mergeResults_perm_invariant (g : Nat) (start : Nat → Nat × Nat)
    (rs1 rs2 : List MatchResult) (h : rs1.Perm rs2) :
    mergeResults g start rs1 = mergeResults g start rs2 :=
  foldl_perm (applyResult g) (fun b a1 a2 => applyResult_comm g b a1 a2) h start

/-- Witness for `mergeResults_perm_invariant` on three concrete matchup
results (agents 0, 1, 2; 10 games per matchup) merged in two different
completion orders. -/
theorem mergeResults_perm_invariant_witness :
    mergeResults 10 (fun _ => (0, 0))
        [⟨0, 1, 6, 4⟩, ⟨0, 2, 3, 7⟩, ⟨1, 2, 5, 5⟩]
      = mergeResults 10 (fun _ => (0, 0))
        [⟨1, 2, 5, 5⟩, ⟨0, 1, 6, 4⟩, ⟨0, 2, 3, 7⟩] :=
  mergeResults_perm_invariant 10 (fun _ => (0, 0))
    [⟨0, 1, 6, 4⟩, ⟨0, 2, 3, 7⟩, ⟨1, 2, 5, 5⟩]
    [⟨1, 2, 5, 5⟩, ⟨0, 1, 6, 4⟩, ⟨0, 2, 3, 7⟩] (by decide)

/-! ### C7: survivor selection and next-generation breeding -/

lemma keepSurvivorsAux_length {α : Type} :
    ∀ (l : List (Agent α)) (i : Nat), (keepSurvivorsAux l i).length = l.length := by
  intro l
  induction l with
  | nil => intro i; rfl
  | cons s rest ih => intro i; simp [keepSurvivorsAux, ih]

lemma keepSurvivorsAux_params {α : Type} (d : Agent α) :
    ∀ (l : List (Agent α)) (i j : Nat), j < l.length →
      ((keepSurvivorsAux l i).getD j d).params = (l.getD j d).params := by
  intro l
  induction l with
  | nil => intro i j hj; simp at hj
  | cons s rest ih =>
    intro i j hj
    cases j with
    | zero => simp [keepSurvivorsAux]
    | succ j' =>
      simp only [keepSurvivorsAux, List.getD_cons_succ]
      exact ih (i + 1) j' (by simpa using hj)

lemma mutantRounds_spec {α : Type} (popSize : Nat) (mutOp : α → α) (s : Agent α) :
    ∀ (k cid : Nat) (acc : List (Agent α)), cid = acc.length → cid ≤ popSize →
      ∃ ext, mutantRounds popSize mutOp s k (cid, acc)
          = (acc.length + ext.length, acc ++ ext)
        ∧ acc.length + ext.length ≤ popSize := by
  intro k
  induction k with
  | zero =>
    intro cid acc hc hle
    refine ⟨[], ?_, by simpa [hc] using hle⟩
    simp [mutantRounds, hc]
  | succ k ih =>
    intro cid acc hc hle
    by_cases hlt : cid < popSize
    · simp only [mutantRounds, if_pos hlt]
      obtain ⟨ext, he, hlext⟩ := ih (cid + 1)
        (acc ++ [{ networkId := cid, params := mutOp s.params, fitness := 0 }])
        (by simp [hc]) (by omega)
      refine ⟨{ networkId := cid, params := mutOp s.params, fitness := 0 } :: ext, ?_, ?_⟩
      · rw [he]
        simp [List.append_assoc]
        omega
      · simp at hlext ⊢
        omega
    · simp only [mutantRounds, if_neg hlt]
      exact ih cid acc hc hle

lemma addMutants_spec {α : Type} (popSize : Nat) (mutOp : α → α) :
    ∀ (l : List (Agent α)) (cid : Nat) (acc : List (Agent α)),
      cid = acc.length → cid ≤ popSize →
      ∃ ext, addMutants popSize mutOp l (cid, acc) = (acc.length + ext.length, acc ++ ext)
        ∧ acc.length + ext.length ≤ popSize := by
  intro l
  induction l with
  | nil =>
    intro cid acc hc hle
    refine ⟨[], by simp [addMutants, hc], by simpa [hc] using hle⟩
  | cons s rest ih =>
    intro cid acc hc hle
    simp only [addMutants]
    obtain ⟨ext1, he1, hle1⟩ := mutantRounds_spec popSize mutOp s 3 cid acc hc hle
    rw [he1]
    obtain ⟨ext2, he2, hle2⟩ := ih (acc.length + ext1.length) (acc ++ ext1) (by simp) hle1
    rw [he2]
    refine ⟨ext1 ++ ext2, ?_, ?_⟩
    · simp [List.append_assoc]
      omega
    · simp at hle2 ⊢
      omega

lemma fillRandom_spec {α : Type} (popSize : Nat) (fr : Nat → Agent α) :
    ∀ (n : Nat) (acc : List (Agent α)) (cid : Nat), popSize - acc.length = n →
      acc.length ≤ popSize →
      ∃ ext, fillRandom popSize fr cid acc = acc ++ ext
        ∧ (acc ++ ext).length = popSize := by
  intro n
  induction n with
  | zero =>
    intro acc cid h hle
    have hnot : ¬ acc.length < popSize := by omega
    rw [fillRandom, if_neg hnot]
    exact ⟨[], by simp, by simp; omega⟩
  | succ n ih =>
    intro acc cid h hle
    have hlt : acc.length < popSize := by omega
    rw [fillRandom, if_pos hlt]
    obtain ⟨ext, he, hl⟩ := ih (acc ++ [fr cid]) (cid + 1) (by simp; omega) (by simp; omega)
    refine ⟨fr cid :: ext, ?_, ?_⟩
    · rw [he]; simp
    · simp at hl ⊢
      omega

lemma selectSurvivors_length {α : Type} (topK : Nat) (pop : List (Agent α)) :
    (selectSurvivors topK pop).length = min topK pop.length := by
  simp [selectSurvivors, sortByFitnessDesc, List.length_take, List.length_mergeSort]

/-- C7: with the population at its configured size and `top_k` at most that
size, `select_survivors` followed by `create_next_generation` yields a new
population of exactly `population_size` agents, whose first `top_k` entries
are the survivors themselves (ids reassigned, parameters untouched); in
particular every top-`top_k` survivor is present in the new population with
parameters equal to its pre-breeding values. -/
theorem nextGeneration_size_and_elitism {α : Type} (popSize topK : Nat)
    (mutOp : α → α) (fr : Nat → Agent α) (pop : List (Agent α)) (d : Agent α)
    (hpop : pop.length = popSize) (hk : topK ≤ popSize) :
    (createNextGeneration popSize mutOp fr (selectSurvivors topK pop)).length = popSize ∧
    (selectSurvivors topK pop).length = topK ∧
    (∀ j, j < topK →
      ((createNextGeneration popSize mutOp fr (selectSurvivors topK pop)).getD j d).params
        = ((selectSurvivors topK pop).getD j d).params) ∧
    (∀ s ∈ selectSurvivors topK pop,
      ∃ a ∈ createNextGeneration popSize mutOp fr (selectSurvivors topK pop),
        a.params = s.params) := by
  have hslen : (selectSurvivors topK pop).length = topK := by
    rw [selectSurvivors_length, hpop]
    omega
  have hkl : (keepSurvivorsAux (selectSurvivors topK pop) 0).length = topK := by
    rw [keepSurvivorsAux_length, hslen]
  obtain ⟨ext1, he1, hle1⟩ := addMutants_spec popSize mutOp (selectSurvivors topK pop)
    (selectSurvivors topK pop).length (keepSurvivorsAux (selectSurvivors topK pop) 0)
    (by rw [keepSurvivorsAux_length]) (by omega)
  have hnext : createNextGeneration popSize mutOp fr (selectSurvivors topK pop)
      = fillRandom popSize fr
          ((keepSurvivorsAux (selectSurvivors topK pop) 0).length + ext1.length)
          (keepSurvivorsAux (selectSurvivors topK pop) 0 ++ ext1) := by
    simp only [createNextGeneration, he1]
  obtain ⟨ext2, he2, hl2⟩ := fillRandom_spec popSize fr
    (popSize - (keepSurvivorsAux (selectSurvivors topK pop) 0 ++ ext1).length)
    (keepSurvivorsAux (selectSurvivors topK pop) 0 ++ ext1)
    ((keepSurvivorsAux (selectSurvivors topK pop) 0).length + ext1.length)
    rfl (by simp at hle1 ⊢; omega)
  have hfull : createNextGeneration popSize mutOp fr (selectSurvivors topK pop)
      = keepSurvivorsAux (selectSurvivors topK pop) 0 ++ ext1 ++ ext2 := by
    rw [hnext, he2]
  have hlen : (createNextGeneration popSize mutOp fr (selectSurvivors topK pop)).length
      = popSize := by
    rw [hfull]
    simpa using hl2
  have hparams : ∀ j, j < topK →
      ((createNextGeneration popSize mutOp fr (selectSurvivors topK pop)).getD j d).params
        = ((selectSurvivors topK pop).getD j d).params := by
    intro j hj
    rw [hfull, List.append_assoc,
      List.getD_append _ _ _ _ (by rw [hkl]; exact hj),
      keepSurvivorsAux_params d _ 0 j (by rw [hslen]; exact hj)]
  refine ⟨hlen, hslen, hparams, ?_⟩
  intro s hs
  obtain ⟨⟨j, hjlen⟩, rfl⟩ := List.mem_iff_get.mp hs
  have hjk : j < topK := by rw [← hslen]; exact hjlen
  have hjnew : j < (createNextGeneration popSize mutOp fr (selectSurvivors topK pop)).length := by
    omega
  refine ⟨(createNextGeneration popSize mutOp fr (selectSurvivors topK pop)).getD j d,
    ?_, ?_⟩
  · rw [List.getD_eq_getElem _ _ hjnew]
    exact List.getElem_mem hjnew
  · rw [hparams j hjk, List.getD_eq_getElem _ _ hjlen, List.get_eq_getElem]

/-- Witness for `nextGeneration_size_and_elitism`: population of 3 agents
(parameters in `ℤ`), `top_k = 1`, mutation adds 1, fresh agents carry
parameter 99. -/
theorem nextGeneration_size_and_elitism_witness :
    (createNextGeneration 3 (fun x : Int => x + 1) (fun i => ⟨i, 99, 0⟩)
        (selectSurvivors 1 [⟨0, 10, 1/2⟩, ⟨1, 20, 3/4⟩, ⟨2, 30, 1/4⟩])).length = 3 ∧
    (selectSurvivors 1 [(⟨0, 10, 1/2⟩ : Agent Int), ⟨1, 20, 3/4⟩, ⟨2, 30, 1/4⟩]).length = 1 ∧
    (∀ j, j < 1 →
      ((createNextGeneration 3 (fun x : Int => x + 1) (fun i => ⟨i, 99, 0⟩)
          (selectSurvivors 1 [⟨0, 10, 1/2⟩, ⟨1, 20, 3/4⟩, ⟨2, 30, 1/4⟩])).getD j ⟨0, 0, 0⟩).params
        = ((selectSurvivors 1 [(⟨0, 10, 1/2⟩ : Agent Int), ⟨1, 20, 3/4⟩, ⟨2, 30, 1/4⟩]).getD
            j ⟨0, 0, 0⟩).params) ∧
    (∀ s ∈ selectSurvivors 1 [(⟨0, 10, 1/2⟩ : Agent Int), ⟨1, 20, 3/4⟩, ⟨2, 30, 1/4⟩],
      ∃ a ∈ createNextGeneration 3 (fun x : Int => x + 1) (fun i => ⟨i, 99, 0⟩)
          (selectSurvivors 1 [⟨0, 10, 1/2⟩, ⟨1, 20, 3/4⟩, ⟨2, 30, 1/4⟩]),
        a.params = s.params) :=
  nextGeneration_size_and_elitism 3 1 (fun x : Int => x + 1) (fun i => ⟨i, 99, 0⟩)
    [⟨0, 10, 1/2⟩, ⟨1, 20, 3/4⟩, ⟨2, 30, 1/4⟩] ⟨0, 0, 0⟩ (by decide) (by decide)

/-! ### Machinery for action execution: popping, sorting, index validity -/

lemma popAt_spec {l : List Card} {i : Nat} {c : Card} {l' : List Card}
    (h : popAt l i = some (c, l')) :
    i < l.length ∧ (↑l : Multiset Card) = ↑l' + ↑[c] ∧ l'.length + 1 = l.length := by
  unfold popAt at h
  split at h
  case isTrue hi =>
    injection h with h2
    rw [Prod.mk.injEq] at h2
    obtain ⟨rfl, rfl⟩ := h2
    refine ⟨hi, ?_, ?_⟩
    · have hperm : l.Perm (l.get ⟨i, hi⟩ :: l.eraseIdx i) := by
        conv_lhs => rw [← List.take_append_drop i l, ← List.getElem_cons_drop l i hi]
        rw [List.eraseIdx_eq_take_drop_succ]
        exact List.perm_middle
      have := Multiset.coe_eq_coe.mpr hperm
      rw [this, Multiset.coe_add]
      exact Multiset.coe_eq_coe.mpr
        (@List.perm_append_comm _ [l.get ⟨i, hi⟩] (l.eraseIdx i))
    · rw [List.length_eraseIdx, if_pos hi]
      omega
  case isFalse => exact absurd h (by simp)

lemma popManyAux_spec :
    ∀ (idxs : List Nat) (hand acc : List Card) {disc hand' : List Card},
      popManyAux hand idxs acc = some (disc, hand') →
      (↑acc + ↑hand : Multiset Card) = ↑disc + ↑hand' ∧
      disc.length = acc.length + idxs.length ∧
      hand'.length + idxs.length = hand.length := by
  intro idxs
  induction idxs with
  | nil =>
    intro hand acc disc hand' h
    simp only [popManyAux] at h
    injection h with h2
    rw [Prod.mk.injEq] at h2
    obtain ⟨rfl, rfl⟩ := h2
    exact ⟨rfl, by simp, by simp⟩
  | cons i rest ih =>
    intro hand acc disc hand' h
    simp only [popManyAux] at h
    cases hpop : popAt hand i with
    | none => rw [hpop] at h; exact absurd h (by simp)
    | some pr =>
      obtain ⟨c, hand1⟩ := pr
      rw [hpop] at h
      obtain ⟨hi, hcoe, hlen⟩ := popAt_spec hpop
      obtain ⟨hcoe2, hdlen, hhlen⟩ := ih hand1 (acc ++ [c]) h
      refine ⟨?_, ?_, ?_⟩
      · rw [hcoe, ← hcoe2, ← Multiset.coe_add]
        abel
      · simp only [List.length_append, List.length_cons, List.length_nil] at hdlen ⊢
        omega
      · simp only [List.length_cons]
        omega
    
lemma popManyAux_isSome :
    ∀ (idxs : List Nat) (hand acc : List Card),
      idxs.Pairwise (fun a b => b < a) → (∀ i ∈ idxs, i < hand.length) →
      ∃ disc hand', popManyAux hand idxs acc = some (disc, hand') := by
  intro idxs
  induction idxs with
  | nil => intro hand acc _ _; exact ⟨acc, hand, rfl⟩
  | cons i rest ih =>
    intro hand acc hp hb
    have hi : i < hand.length := hb i (by simp)
    have hpop : popAt hand i = some (hand.get ⟨i, hi⟩, hand.eraseIdx i) := by
      simp [popAt, hi]
    simp only [popManyAux, hpop]
    apply ih
    · exact (List.pairwise_cons.mp hp).2
    · intro j hj
      have hji : j < i := (List.pairwise_cons.mp hp).1 j hj
      rw [List.length_eraseIdx, if_pos hi]
      omega

lemma getD_eraseIdx_of_lt (l : List Card) (i j : Nat) (hj : j < i) (hi : i < l.length) :
    (l.eraseIdx i).getD j default = l.getD j default := by
  have hlen : (l.eraseIdx i).length = l.length - 1 := by
    rw [List.length_eraseIdx, if_pos hi]
  have h2 : j < (l.eraseIdx i).length := by omega
  rw [List.getD_eq_getElem _ _ h2, List.getD_eq_getElem _ _ (by omega)]
  exact List.getElem_eraseIdx_of_lt l i j h2 hj

lemma popManyAux_discarded :
    ∀ (idxs : List Nat) (hand acc : List Card) {disc hand' : List Card},
      idxs.Pairwise (fun a b => b < a) → (∀ i ∈ idxs, i < hand.length) →
      popManyAux hand idxs acc = some (disc, hand') →
      disc = acc ++ idxs.map (fun i => hand.getD i default) := by
  intro idxs
  induction idxs with
  | nil =>
    intro hand acc disc hand' _ _ h
    simp only [popManyAux] at h
    injection h with h2
    rw [Prod.mk.injEq] at h2
    obtain ⟨rfl, rfl⟩ := h2
    simp
  | cons i rest ih =>
    intro hand acc disc hand' hp hb h
    have hi : i < hand.length := hb i (by simp)
    have hpop : popAt hand i = some (hand.get ⟨i, hi⟩, hand.eraseIdx i) := by
      simp [popAt, hi]
    simp only [popManyAux, hpop] at h
    have hrest_lt : ∀ j ∈ rest, j < i := (List.pairwise_cons.mp hp).1
    have hrest_b : ∀ j ∈ rest, j < (hand.eraseIdx i).length := by
      intro j hj
      rw [List.length_eraseIdx, if_pos hi]
      have := hrest_lt j hj
      omega
    have hrec := ih (hand.eraseIdx i) (acc ++ [hand.get ⟨i, hi⟩])
      (List.pairwise_cons.mp hp).2 hrest_b h
    have hmapeq : rest.map (fun j => (hand.eraseIdx i).getD j default)
        = rest.map (fun j => hand.getD j default) :=
      List.map_congr_left (fun j hj => getD_eraseIdx_of_lt hand i j (hrest_lt j hj) hi)
    have hget : hand.get ⟨i, hi⟩ = hand.getD i default := by
      rw [List.getD_eq_getElem hand default hi]
      rfl
    rw [hrec, hmapeq]
    simp [hget, List.getElem?_eq_getElem hi]

lemma sortDesc_perm (l : List Nat) : (sortDesc l).Perm l :=
  List.mergeSort_perm l _

lemma sortDesc_pairwise (l : List Nat) (hnd : l.Nodup) :
    (sortDesc l).Pairwise (fun a b => b < a) := by
  have hsorted : (sortDesc l).Pairwise (fun a b : Nat => b ≤ a) := by
    have := @List.sorted_mergeSort Nat (fun a b : Nat => decide (b ≤ a))
      (fun a b c h1 h2 => by simp at h1 h2 ⊢; omega)
      (fun a b => by simp; omega) l
    exact this.imp (fun h => by simpa using h)
  have hnd' : (sortDesc l).Nodup := ((sortDesc_perm l).nodup_iff).mpr hnd
  exact (hsorted.and hnd').imp (fun h => by omega)

lemma takeChain_sublist : ∀ (prev : Nat) (l : List (Nat × Nat)),
    (takeChain prev l).Sublist l := by
  intro prev l
  induction l generalizing prev with
  | nil => simp [takeChain]
  | cons e rest ih =>
    simp only [takeChain]
    split
    · exact (ih e.1).cons₂ e
    · exact List.nil_sublist _

lemma runFrom_sublist (sorted : List (Nat × Nat)) (start : Nat) :
    (runFrom sorted start).Sublist sorted := by
  unfold runFrom
  cases hd : sorted.drop start with
  | nil => exact List.nil_sublist _
  | cons e rest =>
    have h1 : (e :: takeChain e.1 rest).Sublist (e :: rest) :=
      (takeChain_sublist e.1 rest).cons₂ e
    have h2 : (e :: rest).Sublist sorted := hd ▸ List.drop_sublist start sorted
    exact h1.trans h2

lemma insertValueGroup_inv (v k : Nat) :
    ∀ (gs : List (Nat × List Nat)),
      (∀ g ∈ gs, g.2.Pairwise (· < ·) ∧ ∀ i ∈ g.2, i < k) →
      ∀ g ∈ insertValueGroup gs v k,
        g.2.Pairwise (· < ·) ∧ ∀ i ∈ g.2, i < k + 1 := by
  intro gs
  induction gs with
  | nil =>
    intro _ g hg
    simp only [insertValueGroup, List.mem_singleton] at hg
    subst hg
    exact ⟨by simp, by simp⟩
  | cons g0 rest ih =>
    intro hinv g hg
    simp only [insertValueGroup] at hg
    split at hg
    · rw [List.mem_cons] at hg
      rcases hg with rfl | hg
      · obtain ⟨hpw, hbd⟩ := hinv g0 (by simp)
        refine ⟨?_, ?_⟩
        · apply List.pairwise_append.mpr
          refine ⟨hpw, by simp, ?_⟩
          intro a ha b hb
          rw [List.mem_singleton] at hb
          subst hb
          exact hbd a ha
        · intro i hi
          rcases List.mem_append.mp hi with h | h
          · have := hbd i h; omega
          · rw [List.mem_singleton] at h; omega
      · obtain ⟨hpw, hbd⟩ := hinv g (List.mem_cons_of_mem _ hg)
        exact ⟨hpw, fun i hi => by have := hbd i hi; omega⟩
    · rw [List.mem_cons] at hg
      rcases hg with rfl | hg
      · obtain ⟨hpw, hbd⟩ := hinv g (by simp)
        exact ⟨hpw, fun i hi => by have := hbd i hi; omega⟩
      · exact ih (fun g' hg' => hinv g' (List.mem_cons_of_mem _ hg')) g hg

lemma valueGroupsAux_inv :
    ∀ (hand : List Card) (k : Nat) (gs : List (Nat × List Nat)),
      (∀ g ∈ gs, g.2.Pairwise (· < ·) ∧ ∀ i ∈ g.2, i < k) →
      ∀ g ∈ valueGroupsAux hand k gs,
        g.2.Pairwise (· < ·) ∧ ∀ i ∈ g.2, i < k + hand.length := by
  intro hand
  induction hand with
  | nil =>
    intro k gs hinv g hg
    simp only [valueGroupsAux] at hg
    obtain ⟨hpw, hbd⟩ := hinv g hg
    exact ⟨hpw, fun i hi => by have := hbd i hi; simp; omega⟩
  | cons c rest ih =>
    intro k gs hinv g hg
    simp only [valueGroupsAux] at hg
    obtain ⟨hpw, hbd⟩ :=
      ih (k + 1) (insertValueGroup gs c.value k) (insertValueGroup_inv c.value k gs hinv) g hg
    exact ⟨hpw, fun i hi => by have := hbd i hi; simp at this ⊢; omega⟩

lemma valueGroups_inv (hand : List Card) :
    ∀ g ∈ valueGroups hand, g.2.Pairwise (· < ·) ∧ ∀ i ∈ g.2, i < hand.length := by
  intro g hg
  have := valueGroupsAux_inv hand 0 [] (by simp) g hg
  simpa using this

lemma insertSuitGroup_inv (s : Suit) (e : Nat × Nat) (k : Nat) (he : e.2 = k) :
    ∀ (gs : List (Suit × List (Nat × Nat))),
      (∀ g ∈ gs, g.2.Pairwise (fun a b => a.2 < b.2) ∧ ∀ x ∈ g.2, x.2 < k) →
      ∀ g ∈ insertSuitGroup gs s e,
        g.2.Pairwise (fun a b => a.2 < b.2) ∧ ∀ x ∈ g.2, x.2 < k + 1 := by
  intro gs
  induction gs with
  | nil =>
    intro _ g hg
    simp only [insertSuitGroup, List.mem_singleton] at hg
    subst hg
    exact ⟨by simp, by simp [he]⟩
  | cons g0 rest ih =>
    intro hinv g hg
    simp only [insertSuitGroup] at hg
    split at hg
    · rw [List.mem_cons] at hg
      rcases hg with rfl | hg
      · obtain ⟨hpw, hbd⟩ := hinv g0 (by simp)
        refine ⟨?_, ?_⟩
        · apply List.pairwise_append.mpr
          refine ⟨hpw, by simp, ?_⟩
          intro a ha b hb
          rw [List.mem_singleton] at hb
          subst hb
          rw [he]
          exact hbd a ha
        · intro x hx
          rcases List.mem_append.mp hx with h | h
          · have := hbd x h; omega
          · rw [List.mem_singleton] at h; subst h; omega
      · obtain ⟨hpw, hbd⟩ := hinv g (List.mem_cons_of_mem _ hg)
        exact ⟨hpw, fun x hx => by have := hbd x hx; omega⟩
    · rw [List.mem_cons] at hg
      rcases hg with rfl | hg
      · obtain ⟨hpw, hbd⟩ := hinv g (by simp)
        exact ⟨hpw, fun x hx => by have := hbd x hx; omega⟩
      · exact ih (fun g' hg' => hinv g' (List.mem_cons_of_mem _ hg')) g hg

lemma suitGroupsAux_inv :
    ∀ (hand : List Card) (k : Nat) (gs : List (Suit × List (Nat × Nat))),
      (∀ g ∈ gs, g.2.Pairwise (fun a b => a.2 < b.2) ∧ ∀ x ∈ g.2, x.2 < k) →
      ∀ g ∈ suitGroupsAux hand k gs,
        g.2.Pairwise (fun a b => a.2 < b.2) ∧ ∀ x ∈ g.2, x.2 < k + hand.length := by
  intro hand
  induction hand with
  | nil =>
    intro k gs hinv g hg
    simp only [suitGroupsAux] at hg
    obtain ⟨hpw, hbd⟩ := hinv g hg
    exact ⟨hpw, fun x hx => by have := hbd x hx; simp; omega⟩
  | cons c rest ih =>
    intro k gs hinv g hg
    simp only [suitGroupsAux] at hg
    obtain ⟨hpw, hbd⟩ := ih (k + 1) (insertSuitGroup gs c.suit (c.value, k))
      (insertSuitGroup_inv c.suit (c.value, k) k rfl gs hinv) g hg
    exact ⟨hpw, fun x hx => by have := hbd x hx; simp at this ⊢; omega⟩

lemma suitGroups_inv (hand : List Card) :
    ∀ g ∈ suitGroups hand,
      g.2.Pairwise (fun a b => a.2 < b.2) ∧ ∀ x ∈ g.2, x.2 < hand.length := by
  intro g hg
  have := suitGroupsAux_inv hand 0 [] (by simp) g hg
  simpa using this

lemma legal_cards_spec {hand : List Card} {a : Action}
    (ha : a ∈ legalActionsOfHand hand) (hty : a.atype ≠ ActionType.callYaniv) :
    a.cards ≠ [] ∧ a.cards.Nodup ∧ (∀ i ∈ a.cards, i < hand.length) ∧
      (a.drawFrom = some DrawSource.deck ∨ a.drawFrom = some DrawSource.discard) := by
  simp only [legalActionsOfHand, List.mem_append] at ha
  rcases ha with ((((h | h) | h) | h) | h)
  · simp only [singleActions, List.mem_flatMap, List.mem_range] at h
    obtain ⟨i, hi, hmem⟩ := h
    simp only [List.mem_cons, List.not_mem_nil, or_false] at hmem
    rcases hmem with rfl | rfl <;>
      exact ⟨by simp, by simp, by intro j hj; simp at hj; subst hj; exact hi, by simp⟩
  · simp only [pairActions, List.mem_flatMap, List.mem_range, List.mem_range'] at h
    obtain ⟨i, hi, j, ⟨k, hk, hjk⟩, hmem⟩ := h
    have hij : i < j := by omega
    have hjlen : j < hand.length := by omega
    have hmem' := mem_of_mem_if_nil hmem
    simp only [List.mem_cons, List.not_mem_nil, or_false] at hmem'
    rcases hmem' with rfl | rfl <;>
      exact ⟨by simp, by simp [Nat.ne_of_lt hij], by
        intro n hn
        simp only [List.mem_cons, List.not_mem_nil, or_false] at hn
        rcases hn with rfl | rfl
        · omega
        · omega, by simp⟩
  · simp only [setActions, List.mem_flatMap] at h
    obtain ⟨g, hg, hmem⟩ := h
    by_cases hc : 3 ≤ g.2.length
    · rw [if_pos hc] at hmem
      obtain ⟨hpw, hbd⟩ := valueGroups_inv hand g hg
      simp only [List.mem_cons, List.not_mem_nil, or_false] at hmem
      rcases hmem with rfl | rfl <;>
        exact ⟨by intro hnil; simp only [] at hnil; rw [hnil] at hc; simp at hc,
          hpw.imp (fun hab => Nat.ne_of_lt hab), hbd, by simp⟩
    · rw [if_neg hc] at hmem
      simp at hmem
  · simp only [runActions, List.mem_flatMap] at h
    obtain ⟨g, hg, hmem1⟩ := h
    by_cases h3 : 3 ≤ g.2.length
    · rw [if_pos h3] at hmem1
      simp only [List.mem_flatMap, List.mem_range] at hmem1
      obtain ⟨start, _, hmem2⟩ := hmem1
      by_cases h3r : 3 ≤ (runFrom (g.2.mergeSort (fun a b => decide (a.1 ≤ b.1))) start).length
      · rw [if_pos h3r] at hmem2
        obtain ⟨hpw, hbd⟩ := suitGroups_inv hand g hg
        have hsub : (runFrom (g.2.mergeSort (fun a b => decide (a.1 ≤ b.1))) start).Sublist
            (g.2.mergeSort (fun a b => decide (a.1 ≤ b.1))) := runFrom_sublist _ _
        have hperm : (g.2.mergeSort (fun a b => decide (a.1 ≤ b.1))).Perm g.2 :=
          List.mergeSort_perm _ _
        have hnodup : ((runFrom (g.2.mergeSort (fun a b => decide (a.1 ≤ b.1))) start).map
            (fun e => e.2)).Nodup := by
          apply List.Sublist.nodup (List.Sublist.map _ hsub)
          apply (List.Perm.nodup_iff (List.Perm.map _ hperm)).mpr
          exact List.pairwise_map.mpr (hpw.imp (fun hab => Nat.ne_of_lt hab))
        have hbound : ∀ i ∈ (runFrom (g.2.mergeSort (fun a b => decide (a.1 ≤ b.1))) start).map
            (fun e => e.2), i < hand.length := by
          intro i hi
          rw [List.mem_map] at hi
          obtain ⟨e, he, rfl⟩ := hi
          exact hbd e (hperm.subset (hsub.subset he))
        have hne : ((runFrom (g.2.mergeSort (fun a b => decide (a.1 ≤ b.1))) start).map
            (fun e => e.2)) ≠ [] := by
          intro hnil
          have hlen := congrArg List.length hnil
          rw [List.length_map] at hlen
          simp only [List.length_nil] at hlen
          omega
        simp only [List.mem_cons, List.not_mem_nil, or_false] at hmem2
        rcases hmem2 with rfl | rfl <;> exact ⟨hne, hnodup, hbound, by simp⟩
      · rw [if_neg h3r] at hmem2
        simp at hmem2
    · rw [if_neg h3] at hmem1
      simp at hmem1
  · simp only [callActions] at h
    split at h
    · simp only [List.mem_singleton] at h
      subst h
      exact absurd rfl hty
    · simp at h

/-! ### Card conservation -/

lemma coe_split_getLast {l : List Card} (h : l ≠ []) :
    (↑l : Multiset Card) = ↑l.dropLast + ↑[l.getLastD default] := by
  have hd : l.getLastD default = l.getLast h := by
    rw [List.getLastD_eq_getLast?, List.getLast?_eq_getLast l h]
    rfl
  rw [hd, Multiset.coe_add, List.dropLast_append_getLast h]

lemma flatten_map_set (l : List Player) :
    ∀ (i : Nat) (p : Player), i < l.length →
      (↑(((l.set i p).map Player.hand).flatten) : Multiset Card)
          + ↑((l.getD i default).hand)
        = ↑((l.map Player.hand).flatten) + ↑p.hand := by
  induction l with
  | nil => intro i p hi; simp at hi
  | cons q t ih =>
    intro i p hi
    cases i with
    | zero =>
      simp only [List.set_cons_zero, List.map_cons, List.flatten_cons, List.getD_cons_zero]
      simp only [← Multiset.coe_add]
      abel
    | succ i' =>
      simp only [List.set_cons_succ, List.map_cons, List.flatten_cons, List.getD_cons_succ]
      simp only [← Multiset.coe_add]
      have hrec := ih i' p (by simpa using hi)
      rw [add_assoc, hrec, ← add_assoc]

lemma map_hand_scoreUpdate (l : List Player) :
    (l.map (fun p : Player => { p with score := p.score + handValue p.hand })).map Player.hand
      = l.map Player.hand := by
  rw [List.map_map]
  rfl

lemma handleYanivCall_conserves (st : GameState) (c : Nat) (hc : c < st.players.length) :
    (↑(stateCards (handleYanivCall st c)) : Multiset Card) = ↑(stateCards st) := by
  simp only [handleYanivCall, stateCards]
  split
  · simp only [← Multiset.coe_add]
    have hfm := flatten_map_set st.players c
      { st.players.getD c default with
        score := (st.players.getD c default).score + 30 } hc
    have h2 : (↑(((st.players.set c
        { st.players.getD c default with
          score := (st.players.getD c default).score + 30 }).map Player.hand).flatten)
          : Multiset Card)
        = ↑((st.players.map Player.hand).flatten) :=
      add_right_cancel hfm
    rw [h2]
  · rw [map_hand_scoreUpdate]

lemma popTop_spec {l : List Card} {c : Card} {l' : List Card}
    (h : popTop l = some (c, l')) :
    (↑l : Multiset Card) = ↑l' + ↑[c] ∧ l'.length + 1 = l.length := by
  unfold popTop at h
  cases hl : l.getLast? with
  | none => rw [hl] at h; exact absurd h (by simp)
  | some c0 =>
    rw [hl] at h
    injection h with h2
    rw [Prod.mk.injEq] at h2
    obtain ⟨h3, h4⟩ := h2
    have hne : l ≠ [] := by
      intro hnil
      rw [hnil] at hl
      simp at hl
    constructor
    · have hd : l.getLastD default = c := by
        rw [List.getLastD_eq_getLast?, hl]
        exact h3
      rw [← hd, ← h4]
      exact coe_split_getLast hne
    · rw [← h4, List.length_dropLast]
      have := List.length_pos.mpr hne
      omega

lemma popN_spec : ∀ (n : Nat) (d : List Card) {cs d' : List Card},
    popN n d = some (cs, d') →
    (↑d : Multiset Card) = ↑cs + ↑d' ∧ cs.length = n ∧ d'.length + n = d.length := by
  intro n
  induction n with
  | zero =>
    intro d cs d' h
    simp only [popN] at h
    injection h with h2
    rw [Prod.mk.injEq] at h2
    obtain ⟨rfl, rfl⟩ := h2
    exact ⟨by simp, rfl, by simp⟩
  | succ n ih =>
    intro d cs d' h
    simp only [popN] at h
    cases hp : popTop d with
    | none => rw [hp] at h; exact absurd h (by simp)
    | some pr =>
      obtain ⟨c, d1⟩ := pr
      simp only [hp] at h
      cases hq : popN n d1 with
      | none => simp only [hq] at h; exact absurd h (by simp)
      | some pr2 =>
        obtain ⟨cs1, d2⟩ := pr2
        simp only [hq] at h
        injection h with h2
        rw [Prod.mk.injEq] at h2
        obtain ⟨h3, h4⟩ := h2
        subst h3
        subst h4
        obtain ⟨hc1, hl1⟩ := popTop_spec hp
        obtain ⟨hc2, hn2, hl2⟩ := ih d1 hq
        refine ⟨?_, by simp [hn2], by omega⟩
        rw [hc1, hc2]
        have : (↑(c :: cs1) : Multiset Card) = ↑cs1 + ↑[c] := by
          rw [Multiset.coe_add]
          exact Multiset.coe_eq_coe.mpr (@List.perm_append_comm _ [c] cs1)
        rw [this]
        abel

lemma dealHands_spec : ∀ (n : Nat) (d : List Card) {hands : List (List Card)} {d' : List Card},
    dealHands n d = some (hands, d') →
    (↑d : Multiset Card) = ↑hands.flatten + ↑d' ∧ hands.length = n ∧
      (∀ h ∈ hands, h.length = 5) ∧ d'.length + 5 * n = d.length := by
  intro n
  induction n with
  | zero =>
    intro d hands d' h
    simp only [dealHands] at h
    injection h with h2
    rw [Prod.mk.injEq] at h2
    obtain ⟨rfl, rfl⟩ := h2
    exact ⟨by simp, rfl, by simp, by simp⟩
  | succ n ih =>
    intro d hands d' h
    simp only [dealHands] at h
    cases hp : popN 5 d with
    | none => rw [hp] at h; exact absurd h (by simp)
    | some pr =>
      obtain ⟨h0, d1⟩ := pr
      simp only [hp] at h
      cases hq : dealHands n d1 with
      | none => simp only [hq] at h; exact absurd h (by simp)
      | some pr2 =>
        obtain ⟨hs1, d2⟩ := pr2
        simp only [hq] at h
        injection h with h2
        rw [Prod.mk.injEq] at h2
        obtain ⟨h3, h4⟩ := h2
        subst h3
        subst h4
        obtain ⟨hc1, hn1, hl1⟩ := popN_spec 5 d hp
        obtain ⟨hc2, hn2, hml2, hl2⟩ := ih d1 hq
        refine ⟨?_, by simp [hn2], ?_, by omega⟩
        · rw [hc1, hc2, List.flatten_cons, ← Multiset.coe_add]
          abel
        · intro hh hmem
          rw [List.mem_cons] at hmem
          rcases hmem with rfl | hmem
          · exact hn1
          · exact hml2 hh hmem

lemma buildPlayersAux_spec :
    ∀ (hands : List (List Card)) (i : Nat),
      (buildPlayersAux hands i).map Player.hand = hands ∧
      (buildPlayersAux hands i).length = hands.length ∧
      (∀ p ∈ buildPlayersAux hands i, p.score = 0) := by
  intro hands
  induction hands with
  | nil => intro i; exact ⟨rfl, rfl, by intro p hp; simp [buildPlayersAux] at hp⟩
  | cons h0 rest ih =>
    intro i
    obtain ⟨hm, hl, hs⟩ := ih (i + 1)
    refine ⟨?_, ?_, ?_⟩
    · simp only [buildPlayersAux, List.map_cons, hm]
    · simp only [buildPlayersAux, List.length_cons, hl]
    · intro p hp
      simp only [buildPlayersAux, List.mem_cons] at hp
      rcases hp with rfl | hp
      · rfl
      · exact hs p hp

lemma initGame_spec {n : Nat} {d : List Card} {st : GameState}
    (h : initGame n d = some st) :
    (↑(stateCards st) : Multiset Card) = ↑d ∧
    st.players.length = n ∧
    (∀ p ∈ st.players, p.score = 0 ∧ p.hand.length = 5) ∧
    st.deck.length + (5 * n + 1) = d.length ∧
    st.discardPile.length = 1 ∧
    st.currentPlayer = 0 ∧ st.gameOver = false ∧ st.winner = none := by
  unfold initGame at h
  cases hd : dealHands n d with
  | none => rw [hd] at h; exact absurd h (by simp)
  | some pr =>
    obtain ⟨hands, d1⟩ := pr
    simp only [hd] at h
    cases hp : popTop d1 with
    | none => simp only [hp] at h; exact absurd h (by simp)
    | some pr2 =>
      obtain ⟨top, d2⟩ := pr2
      simp only [hp] at h
      injection h with h2
      subst h2
      obtain ⟨hc1, hn1, hh5, hl1⟩ := dealHands_spec n d hd
      obtain ⟨hc2, hl2⟩ := popTop_spec hp
      obtain ⟨hbm, hbl, hbs⟩ := buildPlayersAux_spec hands 0
      refine ⟨?_, ?_, ?_, ?_, ?_, rfl, rfl, rfl⟩
      · simp only [stateCards, ← Multiset.coe_add, hbm]
        rw [hc1, hc2]
        abel
      · show (buildPlayersAux hands 0).length = n
        rw [hbl]
        exact hn1
      · intro p hp2
        refine ⟨hbs p hp2, ?_⟩
        have : p.hand ∈ hands := by
          rw [← hbm]
          exact List.mem_map_of_mem Player.hand hp2
        exact hh5 p.hand this
      · show d2.length + (5 * n + 1) = d.length
        omega
      · rfl

lemma reshuffleStep_coe (shuffle : List Card → List Card)
    (hsh : ∀ l, (shuffle l).Perm l) (deck pile : List Card) :
    (↑(reshuffleStep shuffle deck pile).1 + ↑(reshuffleStep shuffle deck pile).2
      : Multiset Card) = ↑deck + ↑pile := by
  unfold reshuffleStep
  split
  case isTrue hc =>
    obtain ⟨hd, hp⟩ := hc
    have hpne : pile ≠ [] := by
      intro hnil
      rw [hnil] at hp
      simp at hp
    simp only []
    rw [Multiset.coe_eq_coe.mpr (hsh pile.dropLast), hd]
    rw [← coe_split_getLast hpne]
    simp
  case isFalse hc => rfl

lemma reshuffleStep_ne_nil (shuffle : List Card → List Card)
    (hsh : ∀ l, (shuffle l).Perm l) (deck pile : List Card)
    (hcase : deck ≠ [] ∨ 2 ≤ pile.length) (hpile : pile ≠ []) :
    (reshuffleStep shuffle deck pile).1 ≠ [] ∧ (reshuffleStep shuffle deck pile).2 ≠ [] := by
  unfold reshuffleStep
  split
  case isTrue hc =>
    obtain ⟨hd, hp⟩ := hc
    refine ⟨?_, by simp⟩
    intro hnil
    simp only [] at hnil
    have hlen := (hsh pile.dropLast).length_eq
    rw [hnil] at hlen
    simp only [List.length_nil, List.length_dropLast] at hlen
    omega
  case isFalse hc =>
    refine ⟨?_, hpile⟩
    rcases hcase with h | h
    · exact h
    · intro hd
      exact hc ⟨hd, by omega⟩

lemma conserve_branch (shuffle : List Card → List Card)
    (hsh : ∀ l, (shuffle l).Perm l) (st : GameState) (pIdx : Nat) (player : Player)
    (hp : pIdx < st.players.length)
    (hplayer : player = st.players.getD pIdx default)
    (H D P : List Card)
    (hsplit : (↑H + ↑D + ↑P : Multiset Card)
      = ↑player.hand + ↑st.deck + ↑st.discardPile) :
    (↑(stateCards { st with
        players := st.players.set pIdx { player with hand := H },
        deck := (reshuffleStep shuffle D P).1,
        discardPile := (reshuffleStep shuffle D P).2 }) : Multiset Card)
      = ↑(stateCards st) := by
  have hfm' : (↑(((st.players.set pIdx { player with hand := H }).map
        Player.hand).flatten) : Multiset Card) + ↑player.hand
      = ↑((st.players.map Player.hand).flatten) + ↑H := by
    have hfm := flatten_map_set st.players pIdx { player with hand := H } hp
    rw [← hplayer] at hfm
    simpa using hfm
  simp only [stateCards, ← Multiset.coe_add]
  apply add_right_cancel (b := (↑player.hand : Multiset Card))
  calc (↑(reshuffleStep shuffle D P).1 + ↑(reshuffleStep shuffle D P).2
        + ↑(((st.players.set pIdx { player with hand := H }).map Player.hand).flatten)
        : Multiset Card) + ↑player.hand
      = (↑(reshuffleStep shuffle D P).1 + ↑(reshuffleStep shuffle D P).2)
        + (↑(((st.players.set pIdx { player with hand := H }).map Player.hand).flatten)
          + ↑player.hand) := by abel
    _ = (↑D + ↑P) + (↑((st.players.map Player.hand).flatten) + ↑H) := by
        rw [reshuffleStep_coe shuffle hsh D P, hfm']
    _ = (↑H + ↑D + ↑P) + ↑((st.players.map Player.hand).flatten) := by abel
    _ = (↑player.hand + ↑st.deck + ↑st.discardPile)
        + ↑((st.players.map Player.hand).flatten) := by rw [hsplit]
    _ = ↑st.deck + ↑st.discardPile + ↑((st.players.map Player.hand).flatten)
        + ↑player.hand := by abel

lemma executeAction_conserves (shuffle : List Card → List Card)
    (hsh : ∀ l, (shuffle l).Perm l)
    {st st' : GameState} {pIdx : Nat} {a : Action}
    (h : executeAction shuffle st pIdx a = some st') :
    (↑(stateCards st') : Multiset Card) = ↑(stateCards st) := by
  unfold executeAction at h
  cases hget : st.players.get? pIdx with
  | none => rw [hget] at h; exact absurd h (by simp)
  | some player =>
    simp only [hget] at h
    obtain ⟨hp, hgetv⟩ := List.get?_eq_some.mp hget
    have hplayer : player = st.players.getD pIdx default := by
      rw [List.getD_eq_getElem _ _ hp, ← hgetv, List.get_eq_getElem]
    by_cases hty : a.atype = ActionType.callYaniv
    · rw [if_pos hty] at h
      injection h with h2
      subst h2
      exact handleYanivCall_conserves st pIdx hp
    · rw [if_neg hty] at h
      cases hpop : popManyAux player.hand (sortDesc a.cards) [] with
      | none => rw [hpop] at h; exact absurd h (by simp)
      | some pr =>
        obtain ⟨disc, hand1⟩ := pr
        simp only [hpop] at h
        have hhand : (↑player.hand : Multiset Card) = ↑disc + ↑hand1 := by
          have := (popManyAux_spec (sortDesc a.cards) player.hand [] hpop).1
          simpa using this
        by_cases hc1 : a.drawFrom = some DrawSource.deck ∧ st.deck ≠ []
        · rw [if_pos hc1] at h
          injection h with h2
          subst h2
          apply conserve_branch shuffle hsh st pIdx player hp hplayer
          calc (↑(hand1 ++ [st.deck.getLastD default]) + ↑st.deck.dropLast
                + ↑(st.discardPile ++ disc) : Multiset Card)
              = ↑hand1 + ↑st.discardPile + ↑disc
                + (↑st.deck.dropLast + ↑[st.deck.getLastD default]) := by
                rw [← Multiset.coe_add, ← Multiset.coe_add]
                abel
            _ = ↑hand1 + ↑st.discardPile + ↑disc + ↑st.deck := by
                rw [← coe_split_getLast hc1.2]
            _ = ↑player.hand + ↑st.deck + ↑st.discardPile := by
                rw [hhand]
                abel
        · rw [if_neg hc1] at h
          by_cases hc2 : a.drawFrom = some DrawSource.discard
            ∧ st.discardPile ++ disc ≠ []
          · rw [if_pos hc2] at h
            injection h with h2
            subst h2
            apply conserve_branch shuffle hsh st pIdx player hp hplayer
            calc (↑(hand1 ++ [(st.discardPile ++ disc).getLastD default]) + ↑st.deck
                  + ↑(st.discardPile ++ disc).dropLast : Multiset Card)
                = ↑hand1 + ↑st.deck + (↑(st.discardPile ++ disc).dropLast
                  + ↑[(st.discardPile ++ disc).getLastD default]) := by
                  rw [← Multiset.coe_add]
                  abel
              _ = ↑hand1 + ↑st.deck + ↑(st.discardPile ++ disc) := by
                  rw [← coe_split_getLast hc2.2]
              _ = ↑hand1 + ↑st.deck + (↑st.discardPile + ↑disc) := by
                  rw [← Multiset.coe_add]
              _ = ↑player.hand + ↑st.deck + ↑st.discardPile := by
                  rw [hhand]
                  abel
          · rw [if_neg hc2] at h
            injection h with h2
            subst h2
            apply conserve_branch shuffle hsh st pIdx player hp hplayer
            calc (↑hand1 + ↑st.deck + ↑(st.discardPile ++ disc) : Multiset Card)
                = ↑hand1 + ↑st.deck + (↑st.discardPile + ↑disc) := by
                  rw [← Multiset.coe_add]
              _ = ↑player.hand + ↑st.deck + ↑st.discardPile := by
                  rw [hhand]
                  abel

lemma get?_of_lt {l : List Player} {i : Nat} (h : i < l.length) :
    l.get? i = some (l.getD i default) := by
  rw [List.get?_eq_getElem?, List.getElem?_eq_getElem h, List.getD_eq_getElem _ _ h]

lemma executeAction_discard_spec (shuffle : List Card → List Card)
    (hsh : ∀ l, (shuffle l).Perm l) (st : GameState) (pIdx : Nat) (a : Action)
    (hp : pIdx < st.players.length)
    (ha : a ∈ legalActionsOfHand (st.players.getD pIdx default).hand)
    (hty : a.atype ≠ ActionType.callYaniv)
    (hdeck : st.deck ≠ []) (hpile : st.discardPile ≠ []) :
    ∃ st' disc hand1 drawn,
      executeAction shuffle st pIdx a = some st' ∧
      popManyAux (st.players.getD pIdx default).hand (sortDesc a.cards) []
        = some (disc, hand1) ∧
      (↑((st.players.getD pIdx default).hand) : Multiset Card) = ↑disc + ↑hand1 ∧
      disc.length = a.cards.length ∧
      hand1.length + a.cards.length = (st.players.getD pIdx default).hand.length ∧
      disc = (sortDesc a.cards).map
        (fun i => (st.players.getD pIdx default).hand.getD i default) ∧
      st'.players = st.players.set pIdx
        { st.players.getD pIdx default with hand := hand1 ++ [drawn] } ∧
      (a.drawFrom = some DrawSource.deck → drawn = st.deck.getLastD default) ∧
      (a.drawFrom = some DrawSource.discard →
        drawn = (st.discardPile ++ disc).getLastD default) ∧
      (a.drawFrom = some DrawSource.deck →
        st'.deck = (reshuffleStep shuffle st.deck.dropLast (st.discardPile ++ disc)).1 ∧
        st'.discardPile
          = (reshuffleStep shuffle st.deck.dropLast (st.discardPile ++ disc)).2) ∧
      (a.drawFrom = some DrawSource.discard →
        st'.deck = st.deck ∧ st'.discardPile = (st.discardPile ++ disc).dropLast) ∧
      st'.deck ≠ [] ∧ st'.discardPile ≠ [] ∧
      st'.gameOver = st.gameOver ∧ st'.winner = st.winner ∧
      st'.currentPlayer = st.currentPlayer := by
  obtain ⟨hcne, hnodup, hbound, hdf⟩ := legal_cards_spec ha hty
  have hpairs : (sortDesc a.cards).Pairwise (fun x y => y < x) := sortDesc_pairwise _ hnodup
  have hbound' : ∀ i ∈ sortDesc a.cards, i < (st.players.getD pIdx default).hand.length := by
    intro i hi
    exact hbound i ((sortDesc_perm a.cards).mem_iff.mp hi)
  obtain ⟨disc, hand1, hpop⟩ :=
    popManyAux_isSome (sortDesc a.cards) (st.players.getD pIdx default).hand [] hpairs hbound'
  obtain ⟨hcoe, hdlen, hhlen⟩ := popManyAux_spec (sortDesc a.cards) _ [] hpop
  have hslen : (sortDesc a.cards).length = a.cards.length := (sortDesc_perm a.cards).length_eq
  have hdiscne : disc ≠ [] := by
    intro hnil
    rw [hnil] at hdlen
    simp at hdlen
    have : a.cards.length ≠ 0 := by
      intro h0
      exact hcne (List.eq_nil_of_length_eq_zero h0)
    omega
  have hpile1ne : st.discardPile ++ disc ≠ [] := by
    intro hnil
    rcases List.append_eq_nil.mp hnil with ⟨h1, _⟩
    exact hpile h1
  have hcoe' : (↑((st.players.getD pIdx default).hand) : Multiset Card) = ↑disc + ↑hand1 := by
    simpa using hcoe
  have hdisc_eq : disc = (sortDesc a.cards).map
      (fun i => (st.players.getD pIdx default).hand.getD i default) := by
    simpa using popManyAux_discarded (sortDesc a.cards) _ [] hpairs hbound' hpop
  simp only [List.length_nil] at hdlen
  rcases hdf with hdf | hdf
  · -- draw from deck
    refine ⟨{ st with
        players := st.players.set pIdx
          { st.players.getD pIdx default with
            hand := hand1 ++ [st.deck.getLastD default] },
        deck := (reshuffleStep shuffle st.deck.dropLast (st.discardPile ++ disc)).1,
        discardPile := (reshuffleStep shuffle st.deck.dropLast (st.discardPile ++ disc)).2 },
      disc, hand1, st.deck.getLastD default, ?_, hpop, hcoe', by omega, by omega, hdisc_eq,
      rfl, fun _ => rfl, fun hcontr => by rw [hdf] at hcontr; exact absurd hcontr (by simp),
      fun _ => ⟨rfl, rfl⟩,
      fun hcontr => by rw [hdf] at hcontr; exact absurd hcontr (by simp),
      ?_, ?_, rfl, rfl, rfl⟩
    · unfold executeAction
      simp only [get?_of_lt hp]
      rw [if_neg hty]
      simp only [hpop]
      rw [if_pos ⟨hdf, hdeck⟩]
    · have hcase : st.deck.dropLast ≠ [] ∨ 2 ≤ (st.discardPile ++ disc).length := by
        by_cases hdl : st.deck.dropLast = []
        · right
          rw [List.length_append]
          have h1 := List.length_pos.mpr hpile
          have h2 := List.length_pos.mpr hdiscne
          omega
        · left; exact hdl
      exact (reshuffleStep_ne_nil shuffle hsh _ _ hcase hpile1ne).1
    · have hcase : st.deck.dropLast ≠ [] ∨ 2 ≤ (st.discardPile ++ disc).length := by
        by_cases hdl : st.deck.dropLast = []
        · right
          rw [List.length_append]
          have h1 := List.length_pos.mpr hpile
          have h2 := List.length_pos.mpr hdiscne
          omega
        · left; exact hdl
      exact (reshuffleStep_ne_nil shuffle hsh _ _ hcase hpile1ne).2
  · -- draw from discard
    have hnot1 : ¬ (a.drawFrom = some DrawSource.deck ∧ st.deck ≠ []) := by
      rintro ⟨hcontr, _⟩
      rw [hdf] at hcontr
      exact absurd hcontr (by simp)
    have hdropne : (st.discardPile ++ disc).dropLast ≠ [] := by
      intro hnil
      have := congrArg List.length hnil
      rw [List.length_dropLast, List.length_append] at this
      have h1 := List.length_pos.mpr hpile
      have h2 := List.length_pos.mpr hdiscne
      simp at this
      omega
    refine ⟨{ st with
        players := st.players.set pIdx
          { st.players.getD pIdx default with
            hand := hand1 ++ [(st.discardPile ++ disc).getLastD default] },
        deck := (reshuffleStep shuffle st.deck ((st.discardPile ++ disc).dropLast)).1,
        discardPile := (reshuffleStep shuffle st.deck ((st.discardPile ++ disc).dropLast)).2 },
      disc, hand1, (st.discardPile ++ disc).getLastD default, ?_, hpop, hcoe',
      by omega, by omega, hdisc_eq, rfl,
      fun hcontr => by rw [hdf] at hcontr; exact absurd hcontr (by simp),
      fun _ => rfl,
      fun hcontr => by rw [hdf] at hcontr; exact absurd hcontr (by simp),
      fun _ => ?_, ?_, ?_, rfl, rfl, rfl⟩
    · unfold executeAction
      simp only [get?_of_lt hp]
      rw [if_neg hty]
      simp only [hpop]
      rw [if_neg hnot1, if_pos ⟨hdf, hpile1ne⟩]
    · have hrs : reshuffleStep shuffle st.deck ((st.discardPile ++ disc).dropLast)
          = (st.deck, (st.discardPile ++ disc).dropLast) := by
        unfold reshuffleStep
        rw [if_neg]
        rintro ⟨h1, _⟩
        exact hdeck h1
      constructor
      · show (reshuffleStep shuffle st.deck ((st.discardPile ++ disc).dropLast)).1 = st.deck
        rw [hrs]
      · show (reshuffleStep shuffle st.deck ((st.discardPile ++ disc).dropLast)).2
            = (st.discardPile ++ disc).dropLast
        rw [hrs]
    · exact (reshuffleStep_ne_nil shuffle hsh _ _ (Or.inl hdeck) hdropne).1
    · exact (reshuffleStep_ne_nil shuffle hsh _ _ (Or.inl hdeck) hdropne).2

lemma handleYanivCall_fields (st : GameState) (c : Nat) (hc : c < st.players.length) :
    (handleYanivCall st c).deck = st.deck ∧
    (handleYanivCall st c).discardPile = st.discardPile ∧
    (handleYanivCall st c).players.length = st.players.length ∧
    (∀ p ∈ (handleYanivCall st c).players, ∃ q ∈ st.players, p.hand = q.hand) := by
  refine ⟨rfl, rfl, ?_, ?_⟩
  · simp only [handleYanivCall]
    split <;> simp
  · simp only [handleYanivCall]
    split
    · intro p hp
      rcases List.mem_or_eq_of_mem_set hp with h | h
      · exact ⟨p, h, rfl⟩
      · subst h
        refine ⟨st.players.getD c default, ?_, rfl⟩
        rw [List.getD_eq_getElem _ _ hc]
        exact List.getElem_mem hc
    · intro p hp
      rw [List.mem_map] at hp
      obtain ⟨q, hq, rfl⟩ := hp
      exact ⟨q, hq, rfl⟩

lemma executeAction_good (shuffle : List Card → List Card)
    (hsh : ∀ l, (shuffle l).Perm l) (st st' : GameState) (a : Action)
    (hleg : a ∈ getLegalActions st st.currentPlayer)
    (hcp : st.currentPlayer < st.players.length)
    (hdeck : st.deck ≠ []) (hpile : st.discardPile ≠ [])
    (hhands : ∀ p ∈ st.players, p.hand ≠ [])
    (hexec : executeAction shuffle st st.currentPlayer a = some st') :
    st'.players.length = st.players.length ∧ st'.deck ≠ [] ∧ st'.discardPile ≠ [] ∧
    (∀ p ∈ st'.players, p.hand ≠ []) := by
  by_cases hty : a.atype = ActionType.callYaniv
  · have hcall : st' = handleYanivCall st st.currentPlayer := by
      unfold executeAction at hexec
      rw [get?_of_lt hcp] at hexec
      simp only [if_pos hty] at hexec
      exact (Option.some.injEq _ _ ▸ hexec).symm
    obtain ⟨hd, hp, hl, hh⟩ := handleYanivCall_fields st st.currentPlayer hcp
    subst hcall
    refine ⟨hl, hd ▸ hdeck, hp ▸ hpile, ?_⟩
    intro p hpmem
    obtain ⟨q, hq, hpq⟩ := hh p hpmem
    rw [hpq]
    exact hhands q hq
  · obtain ⟨st'', disc, hand1, drawn, hexec', _, _, _, _, _, hplayers, _, _, _, _, hdne, hpne,
      _, _, _⟩ := executeAction_discard_spec shuffle hsh st st.currentPlayer a hcp hleg
        hty hdeck hpile
    have hsame : st'' = st' := by
      rw [hexec'] at hexec
      exact Option.some.injEq _ _ ▸ hexec
    subst hsame
    refine ⟨by rw [hplayers]; simp, hdne, hpne, ?_⟩
    intro p hpmem
    rw [hplayers] at hpmem
    rcases List.mem_or_eq_of_mem_set hpmem with h | h
    · exact hhands p h
    · subst h
      simp

lemma reachable_good (shuffle : List Card → List Card)
    (hsh : ∀ l, (shuffle l).Perm l) :
    ∀ st, Reachable shuffle st →
      st.currentPlayer < st.players.length ∧ st.deck ≠ [] ∧ st.discardPile ≠ [] ∧
      (∀ p ∈ st.players, p.hand ≠ []) := by
  intro st hr
  induction hr with
  | base n d st0 hn hperm hinit =>
    obtain ⟨_, hlen, hps, hdl, hpl, hcp, _, _⟩ := initGame_spec hinit
    have hdlen : d.length = 54 := by
      rw [hperm.length_eq]
      rfl
    refine ⟨?_, ?_, ?_, ?_⟩
    · rw [hcp, hlen]
      omega
    · intro hnil
      rw [hnil] at hdl
      simp only [List.length_nil] at hdl
      omega
    · intro hnil
      rw [hnil] at hpl
      simp at hpl
    · intro p hp
      have := (hps p hp).2
      intro hnil
      rw [hnil] at this
      simp at this
  | step st0 a st1 hr0 hleg hexec ih =>
    obtain ⟨hcp, hd, hp, hh⟩ := ih
    obtain ⟨hlen', hd', hp', hh'⟩ :=
      executeAction_good shuffle hsh st0 st1 a hleg hcp hd hp hh hexec
    refine ⟨?_, hd', hp', hh'⟩
    show (st1.currentPlayer + 1) % st1.players.length < st1.players.length
    apply Nat.mod_lt
    omega

/-! ### C3: conservation of the 54-card multiset -/

/-- C3: in every state reachable from `initialize_game` (for any permutation
of the 54-card deck) by executing legal actions — including across the
empty-deck reshuffle — the multiset union of the deck, the discard pile and
all players' hands equals the fixed 54-card deck multiset. -/
theorem cards_conserved (shuffle : List Card → List Card)
    (hsh : ∀ l, (shuffle l).Perm l) (st : GameState)
    (hr : Reachable shuffle st) :
    (↑(stateCards st) : Multiset Card) = ↑createDeck := by
  induction hr with
  | base n d st0 hn hperm hinit =>
    rw [(initGame_spec hinit).1]
    exact Multiset.coe_eq_coe.mpr hperm
  | step st0 a st1 hr0 hleg hexec ih =>
    have hcons := executeAction_conserves shuffle hsh hexec
    show (↑(stateCards st1) : Multiset Card) = ↑createDeck
    rw [hcons]
    exact ih

/-- Witness for `cards_conserved` at the freshly initialized two-player
game `initialStateW`. -/
theorem cards_conserved_witness :
    (↑(stateCards initialStateW) : Multiset Card) = ↑createDeck :=
  cards_conserved id (fun l => List.Perm.refl l) initialStateW
    (Reachable.base 2 createDeck initialStateW (by decide) (List.Perm.refl _) (by decide))

/-! ### C5: effect of a legal discard action -/

/-- C5: in every reachable round state, executing a legal discard action
removes exactly the chosen cards from the acting player's hand — `disc` is
the list of the hand's cards at the chosen indices (popped in descending
index order, so equal as a multiset to the cards at `a.cards`' positions),
and the hand splits as `↑hand = ↑disc + ↑hand1` — appends exactly those
cards to the discard pile (the pile passes through `discardPile ++ disc`:
when drawing from the deck the final deck/pile are exactly the reshuffle
step applied to the popped deck and `discardPile ++ disc`, and when
drawing from the discard pile the deck is unchanged and the final pile is
`(discardPile ++ disc).dropLast`), and then draws exactly one card from
the chosen source into the hand — the deck's top when `draw_from = deck`
(reshuffling the pile minus its top into a new deck if the deck just
emptied), the extended pile's top when `draw_from = discard` — so the hand
always gains exactly one drawn card: `|hand'| = |hand| - |chosen| + 1`. -/
theorem discard_action_spec (shuffle : List Card → List Card)
    (hsh : ∀ l, (shuffle l).Perm l) (st : GameState) (a : Action)
    (hr : Reachable shuffle st)
    (ha : a ∈ getLegalActions st st.currentPlayer)
    (hty : a.atype ≠ ActionType.callYaniv) :
    ∃ (st' : GameState) (disc hand1 : List Card) (drawn : Card),
      executeAction shuffle st st.currentPlayer a = some st' ∧
      (↑((st.players.getD st.currentPlayer default).hand) : Multiset Card)
        = ↑disc + ↑hand1 ∧
      disc.length = a.cards.length ∧
      disc = (sortDesc a.cards).map
        (fun i => (st.players.getD st.currentPlayer default).hand.getD i default) ∧
      (↑disc : Multiset Card) = ↑(a.cards.map
        (fun i => (st.players.getD st.currentPlayer default).hand.getD i default)) ∧
      st'.players = st.players.set st.currentPlayer
        { st.players.getD st.currentPlayer default with hand := hand1 ++ [drawn] } ∧
      (st'.players.getD st.currentPlayer default).hand = hand1 ++ [drawn] ∧
      (a.drawFrom = some DrawSource.deck → drawn = st.deck.getLastD default) ∧
      (a.drawFrom = some DrawSource.discard →
        drawn = (st.discardPile ++ disc).getLastD default) ∧
      (a.drawFrom = some DrawSource.deck →
        st'.deck = (reshuffleStep shuffle st.deck.dropLast (st.discardPile ++ disc)).1 ∧
        st'.discardPile
          = (reshuffleStep shuffle st.deck.dropLast (st.discardPile ++ disc)).2) ∧
      (a.drawFrom = some DrawSource.discard →
        st'.deck = st.deck ∧ st'.discardPile = (st.discardPile ++ disc).dropLast) ∧
      (st'.players.getD st.currentPlayer default).hand.length + a.cards.length
        = (st.players.getD st.currentPlayer default).hand.length + 1 := by
  obtain ⟨hcp, hdeck, hpile, _⟩ := reachable_good shuffle hsh st hr
  obtain ⟨st', disc, hand1, drawn, hexec, hpop, hcoe, hdlen, hhlen, hdisceq, hplayers,
    hdrawdeck, hdrawdisc, hpdeck, hpdisc, _, _, _, _, _⟩ :=
    executeAction_discard_spec shuffle hsh st st.currentPlayer a hcp ha hty hdeck hpile
  have hhand' : (st'.players.getD st.currentPlayer default).hand = hand1 ++ [drawn] := by
    rw [hplayers, getD_set_same _ _ _ hcp]
  have hdisc_ms : (↑disc : Multiset Card) = ↑(a.cards.map
      (fun i => (st.players.getD st.currentPlayer default).hand.getD i default)) := by
    rw [hdisceq, Multiset.coe_eq_coe]
    exact (sortDesc_perm a.cards).map _
  refine ⟨st', disc, hand1, drawn, hexec, hcoe, hdlen, hdisceq, hdisc_ms, hplayers,
    hhand', hdrawdeck, hdrawdisc, hpdeck, hpdisc, ?_⟩
  rw [hhand']
  simp only [List.length_append, List.length_cons, List.length_nil]
  omega

/-- Witness for `discard_action_spec`: player 0 of the freshly dealt
`initialStateW` discards their first card and draws from the deck. -/
theorem discard_action_spec_witness :
    ∃ (st' : GameState) (disc hand1 : List Card) (drawn : Card),
      executeAction id initialStateW initialStateW.currentPlayer
        ⟨ActionType.discardSingle, [0], some DrawSource.deck⟩ = some st' ∧
      (↑((initialStateW.players.getD initialStateW.currentPlayer default).hand)
        : Multiset Card) = ↑disc + ↑hand1 ∧
      disc.length = (⟨ActionType.discardSingle, [0], some DrawSource.deck⟩
        : Action).cards.length ∧
      disc = (sortDesc (⟨ActionType.discardSingle, [0], some DrawSource.deck⟩
          : Action).cards).map
        (fun i => (initialStateW.players.getD initialStateW.currentPlayer
          default).hand.getD i default) ∧
      (↑disc : Multiset Card)
        = ↑((⟨ActionType.discardSingle, [0], some DrawSource.deck⟩
            : Action).cards.map
          (fun i => (initialStateW.players.getD initialStateW.currentPlayer
            default).hand.getD i default)) ∧
      st'.players = initialStateW.players.set initialStateW.currentPlayer
        { initialStateW.players.getD initialStateW.currentPlayer default with
          hand := hand1 ++ [drawn] } ∧
      (st'.players.getD initialStateW.currentPlayer default).hand
        = hand1 ++ [drawn] ∧
      ((⟨ActionType.discardSingle, [0], some DrawSource.deck⟩ : Action).drawFrom
          = some DrawSource.deck → drawn = initialStateW.deck.getLastD default) ∧
      ((⟨ActionType.discardSingle, [0], some DrawSource.deck⟩ : Action).drawFrom
          = some DrawSource.discard →
        drawn = (initialStateW.discardPile ++ disc).getLastD default) ∧
      ((⟨ActionType.discardSingle, [0], some DrawSource.deck⟩ : Action).drawFrom
          = some DrawSource.deck →
        st'.deck = (reshuffleStep id initialStateW.deck.dropLast
          (initialStateW.discardPile ++ disc)).1 ∧
        st'.discardPile = (reshuffleStep id initialStateW.deck.dropLast
          (initialStateW.discardPile ++ disc)).2) ∧
      ((⟨ActionType.discardSingle, [0], some DrawSource.deck⟩ : Action).drawFrom
          = some DrawSource.discard →
        st'.deck = initialStateW.deck ∧
        st'.discardPile = (initialStateW.discardPile ++ disc).dropLast) ∧
      (st'.players.getD initialStateW.currentPlayer default).hand.length
          + (⟨ActionType.discardSingle, [0], some DrawSource.deck⟩ : Action).cards.length
        = (initialStateW.players.getD initialStateW.currentPlayer
            default).hand.length + 1 :=
  discard_action_spec id (fun l => List.Perm.refl l) initialStateW
    ⟨ActionType.discardSingle, [0], some DrawSource.deck⟩
    (Reachable.base 2 createDeck initialStateW (by decide) (List.Perm.refl _) (by decide))
    (by decide) (by decide)

/-! ### C6: the play_game loop terminates at the turn cap -/

lemma firstMinAux_spec (f : Player → Nat) :
    ∀ (rest : List Player) (i bi bv : Nat),
      (firstMinAux f rest i (bi, bv)).2 ≤ bv ∧
      (∀ j, j < rest.length → (firstMinAux f rest i (bi, bv)).2 ≤ f (rest.getD j default)) ∧
      (firstMinAux f rest i (bi, bv) = (bi, bv) ∨
        ∃ j, j < rest.length ∧
          firstMinAux f rest i (bi, bv) = (i + j, f (rest.getD j default))) := by
  intro rest
  induction rest with
  | nil =>
    intro i bi bv
    exact ⟨le_refl _, by intro j hj; simp at hj, Or.inl rfl⟩
  | cons q t ih =>
    intro i bi bv
    simp only [firstMinAux]
    by_cases hq : f q < bv
    · rw [if_pos hq]
      obtain ⟨h1, h2, h3⟩ := ih (i + 1) i (f q)
      refine ⟨by omega, ?_, ?_⟩
      · intro j hj
        cases j with
        | zero => simpa using h1
        | succ j' =>
          rw [List.getD_cons_succ]
          exact h2 j' (by simpa using hj)
      · rcases h3 with h | ⟨j, hj, heq⟩
        · right
          exact ⟨0, by simp, by rw [h]; simp⟩
        · right
          refine ⟨j + 1, by simpa using Nat.succ_lt_succ hj, ?_⟩
          rw [heq]
          simp only [List.getD_cons_succ, Prod.mk.injEq]
          exact ⟨by omega, trivial⟩
    · rw [if_neg hq]
      obtain ⟨h1, h2, h3⟩ := ih (i + 1) bi bv
      refine ⟨h1, ?_, ?_⟩
      · intro j hj
        cases j with
        | zero =>
          simp only [List.getD_cons_zero]
          omega
        | succ j' =>
          rw [List.getD_cons_succ]
          exact h2 j' (by simpa using hj)
      · rcases h3 with h | ⟨j, hj, heq⟩
        · left
          exact h
        · right
          refine ⟨j + 1, by simpa using Nat.succ_lt_succ hj, ?_⟩
          rw [heq]
          simp only [List.getD_cons_succ, Prod.mk.injEq]
          exact ⟨by omega, trivial⟩

lemma firstMinBy_spec (f : Player → Nat) (l : List Player) (hne : l ≠ []) :
    ∃ m, firstMinBy f l = some m ∧ m < l.length ∧
      ∀ j, j < l.length → f (l.getD m default) ≤ f (l.getD j default) := by
  cases l with
  | nil => exact absurd rfl hne
  | cons p t =>
    obtain ⟨h1, h2, h3⟩ := firstMinAux_spec f t 1 0 (f p)
    rcases h3 with h | ⟨j, hj, heq⟩
    · refine ⟨0, ?_, by simp, ?_⟩
      · simp only [firstMinBy, h]
      · intro j2 hj2
        cases j2 with
        | zero => simp
        | succ j2' =>
          simp only [List.getD_cons_zero, List.getD_cons_succ]
          have := h2 j2' (by simpa using hj2)
          rw [h] at this
          simpa using this
    · refine ⟨1 + j, ?_, by simp; omega, ?_⟩
      · simp only [firstMinBy, heq]
      · intro j2 hj2
        have hm : f ((p :: t).getD (1 + j) default) = f (t.getD j default) := by
          have h1j : 1 + j = j + 1 := by omega
          rw [h1j, List.getD_cons_succ]
        rw [hm]
        cases j2 with
        | zero =>
          simp only [List.getD_cons_zero]
          have := h1
          rw [heq] at this
          simpa using this
        | succ j2' =>
          rw [List.getD_cons_succ]
          have := h2 j2' (by simpa using hj2)
          rw [heq] at this
          simpa using this

lemma popTop_isSome {d : List Card} (h : d ≠ []) :
    ∃ c d', popTop d = some (c, d') ∧ d'.length + 1 = d.length := by
  unfold popTop
  cases hd : d.getLast? with
  | none =>
    rw [List.getLast?_eq_getLast d h] at hd
    exact absurd hd (by simp)
  | some c =>
    refine ⟨c, d.dropLast, rfl, ?_⟩
    rw [List.length_dropLast]
    have := List.length_pos.mpr h
    omega

lemma popN_isSome : ∀ (n : Nat) (d : List Card), n ≤ d.length →
    ∃ cs d', popN n d = some (cs, d') := by
  intro n
  induction n with
  | zero => intro d _; exact ⟨[], d, rfl⟩
  | succ n ih =>
    intro d hle
    have hne : d ≠ [] := by
      intro hnil
      rw [hnil] at hle
      simp at hle
    obtain ⟨c, d1, hp, hl⟩ := popTop_isSome hne
    obtain ⟨cs, d2, hq⟩ := ih d1 (by omega)
    exact ⟨c :: cs, d2, by simp only [popN, hp, hq]⟩

lemma dealHands_isSome : ∀ (n : Nat) (d : List Card), 5 * n ≤ d.length →
    ∃ hs d', dealHands n d = some (hs, d') ∧ d'.length + 5 * n = d.length := by
  intro n
  induction n with
  | zero => intro d _; exact ⟨[], d, rfl, by omega⟩
  | succ n ih =>
    intro d hle
    obtain ⟨h0, d1, hp⟩ := popN_isSome 5 d (by omega)
    obtain ⟨_, _, hl1⟩ := popN_spec 5 d hp
    obtain ⟨hs, d2, hq, hl2⟩ := ih d1 (by omega)
    refine ⟨h0 :: hs, d2, by simp only [dealHands, hp, hq], by omega⟩

lemma initGame_isSome (n : Nat) (d : List Card) (h : 5 * n + 1 ≤ d.length) :
    ∃ st, initGame n d = some st := by
  obtain ⟨hs, d1, hdeal, hlen⟩ := dealHands_isSome n d (by omega)
  have hne : d1 ≠ [] := by
    intro hnil
    rw [hnil] at hlen
    simp only [List.length_nil] at hlen
    omega
  obtain ⟨top, d2, hpop, _⟩ := popTop_isSome hne
  refine ⟨{ deck := d2
            discardPile := [top]
            players := buildPlayersAux hs 0
            currentPlayer := 0
            gameOver := false
            winner := none }, ?_⟩
  simp only [initGame, hdeal, hpop]

lemma single_mem_legal (c : Card) (t : List Card) :
    (⟨ActionType.discardSingle, [0], some DrawSource.deck⟩ : Action)
      ∈ legalActionsOfHand (c :: t) := by
  simp only [legalActionsOfHand, List.mem_append]
  left; left; left; left
  simp only [singleActions, List.mem_flatMap, List.mem_range]
  exact ⟨0, by simp, by simp⟩

lemma filter_headD_spec {l : List Action} {p : Action → Bool} (h : l.filter p ≠ []) :
    (l.filter p).headD default ∈ l ∧ p ((l.filter p).headD default) = true := by
  cases hf : l.filter p with
  | nil => exact absurd hf h
  | cons x xs =>
    have hx : x ∈ l.filter p := by rw [hf]; simp
    simp only [List.headD_cons]
    exact ⟨(List.mem_filter.mp hx).1, (List.mem_filter.mp hx).2⟩

lemma neverCallPolicy_good : GoodPolicy neverCallPolicy := by
  intro view hand hne
  cases hand with
  | nil => exact absurd rfl hne
  | cons c t =>
    have hfil : (legalActionsOfHand (c :: t)).filter
        (fun x => decide (x.atype ≠ ActionType.callYaniv)) ≠ [] := by
      apply List.ne_nil_of_mem
        (a := (⟨ActionType.discardSingle, [0], some DrawSource.deck⟩ : Action))
      rw [List.mem_filter]
      exact ⟨single_mem_legal c t, by decide⟩
    obtain ⟨h1, h2⟩ := filter_headD_spec hfil
    exact ⟨h1, of_decide_eq_true h2⟩

lemma playLoop_runs (shuffle : List Card → List Card)
    (hsh : ∀ l, (shuffle l).Perm l) (p0 p1 : Policy)
    (hp0 : GoodPolicy p0) (hp1 : GoodPolicy p1) :
    ∀ (k : Nat) (st : GameState) (tc fuel : Nat),
      LoopGood st → tc + k = 200 → k < fuel →
      ∃ st', playLoop shuffle [p0, p1] fuel st tc = some (st', 200) ∧ LoopGood st' := by
  intro k
  induction k with
  | zero =>
    intro st tc fuel hg htc hfuel
    cases fuel with
    | zero => omega
    | succ fuel =>
      refine ⟨st, ?_, hg⟩
      simp only [playLoop]
      rw [if_neg (by rintro ⟨_, hlt⟩; omega)]
      have h200 : tc = 200 := by omega
      rw [h200]
  | succ k ih =>
    intro st tc fuel hg htc hfuel
    cases fuel with
    | zero => omega
    | succ fuel =>
      obtain ⟨hlen2, hcp, hgo, hwin, hd, hpl, hh⟩ := hg
      have hhand_ne : (st.players.getD st.currentPlayer default).hand ≠ [] := by
        apply hh
        rw [List.getD_eq_getElem _ _ (by omega)]
        exact List.getElem_mem (by omega)
      have hpol : GoodPolicy ([p0, p1].getD st.currentPlayer (fun _ _ => default)) := by
        have h01 : st.currentPlayer = 0 ∨ st.currentPlayer = 1 := by omega
        rcases h01 with h0 | h1
        · rw [h0]
          simpa using hp0
        · rw [h1]
          simpa using hp1
      have hchoice := hpol (getGameState st st.currentPlayer)
        (st.players.getD st.currentPlayer default).hand hhand_ne
      obtain ⟨st', disc, hand1, drawn, hexec, _, _, _, _, _, hplayers, _, _, _, _, hdne, hpne,
        hgo', hwin', hcp'⟩ :=
        executeAction_discard_spec shuffle hsh st st.currentPlayer _ (by omega)
          hchoice.1 hchoice.2 hd hpl
      have hlen' : st'.players.length = 2 := by
        rw [hplayers, List.length_set]
        exact hlen2
      simp only [playLoop]
      rw [show getLegalActions st st.currentPlayer
        = legalActionsOfHand (st.players.getD st.currentPlayer default).hand from rfl]
      rw [if_pos ⟨hgo, by omega⟩]
      rw [if_neg (legalActionsOfHand_ne_nil (st.players.getD st.currentPlayer default).hand)]
      simp only [hexec]
      apply ih
      · refine ⟨?_, ?_, ?_, ?_, ?_, ?_, ?_⟩
        · show st'.players.length = 2
          exact hlen'
        · show (st'.currentPlayer + 1) % st'.players.length < 2
          rw [hlen']
          exact Nat.mod_lt _ (by omega)
        · show st'.gameOver = false
          rw [hgo']
          exact hgo
        · show st'.winner = none
          rw [hwin']
          exact hwin
        · exact hdne
        · exact hpne
        · show ∀ p ∈ st'.players, p.hand ≠ []
          intro p hpmem
          rw [hplayers] at hpmem
          rcases List.mem_or_eq_of_mem_set hpmem with hmem | heq
          · exact hh p hmem
          · subst heq
            simp
      · omega
      · omega

/-- C6: for any two agents whose decision functions always return a legal
action and never the call-end action, `play_game` (turn cap 200) terminates:
the loop exits after exactly 200 counted turns (within 201 loop iterations,
never looping indefinitely — the skip-turn branch is unreachable), and a
winner is returned, namely the first player whose hand value is lowest when
the cap is hit. -/
theorem playGame_terminates (shuffle : List Card → List Card)
    (hsh : ∀ l, (shuffle l).Perm l) (p0 p1 : Policy)
    (hp0 : GoodPolicy p0) (hp1 : GoodPolicy p1) :
    ∃ (st0 stF : GameState) (w : Nat),
      initGame 2 (shuffle createDeck) = some st0 ∧
      playLoop shuffle [p0, p1] 201 st0 0 = some (stF, 200) ∧
      playGame shuffle [p0, p1] 201 = some (stF, some w) ∧
      w < stF.players.length ∧
      (∀ j, j < stF.players.length →
        handValue ((stF.players.getD w default).hand)
          ≤ handValue ((stF.players.getD j default).hand)) := by
  have hlen54 : (shuffle createDeck).length = 54 := by
    rw [(hsh createDeck).length_eq]
    rfl
  obtain ⟨st0, hinit⟩ := initGame_isSome 2 (shuffle createDeck) (by omega)
  obtain ⟨hconsv, hplen, hps, hdlen, hpilelen, hcp0, hgo0, hwin0⟩ := initGame_spec hinit
  have hgood : LoopGood st0 := by
    refine ⟨hplen, by rw [hcp0]; omega, hgo0, hwin0, ?_, ?_, ?_⟩
    · intro hnil
      rw [hnil] at hdlen
      simp only [List.length_nil] at hdlen
      omega
    · intro hnil
      rw [hnil] at hpilelen
      simp at hpilelen
    · intro p hp
      have := (hps p hp).2
      intro hnil
      rw [hnil] at this
      simp at this
  obtain ⟨stF, hloop, hgoodF⟩ := playLoop_runs shuffle hsh p0 p1 hp0 hp1 200 st0 0 201
    hgood (by omega) (by omega)
  have hne : stF.players ≠ [] := by
    intro hnil
    have := hgoodF.1
    rw [hnil] at this
    simp at this
  obtain ⟨m, hfm, hmlt, hmin⟩ := firstMinBy_spec (fun p => handValue p.hand) stF.players hne
  refine ⟨st0, stF, m, hinit, hloop, ?_, hmlt, hmin⟩
  unfold playGame
  have hinit2 : initGame (List.length [p0, p1]) (shuffle createDeck) = some st0 := hinit
  simp only [hinit2, hloop]
  have hwinF : stF.winner = none := hgoodF.2.2.2.1
  rw [hwinF, hfm]

/-- Witness for `playGame_terminates`: both agents are `neverCallPolicy`
and the deck is left unshuffled (`shuffle = id`). -/
theorem playGame_terminates_witness :
    ∃ (st0 stF : GameState) (w : Nat),
      initGame 2 (id createDeck) = some st0 ∧
      playLoop id [neverCallPolicy, neverCallPolicy] 201 st0 0 = some (stF, 200) ∧
      playGame id [neverCallPolicy, neverCallPolicy] 201 = some (stF, some w) ∧
      w < stF.players.length ∧
      (∀ j, j < stF.players.length →
        handValue ((stF.players.getD w default).hand)
          ≤ handValue ((stF.players.getD j default).hand)) :=
  playGame_terminates id (fun l => List.Perm.refl l) neverCallPolicy neverCallPolicy
    neverCallPolicy_good neverCallPolicy_good

end Yaniv
